import Mathlib

/-!
# Verification of the vigie YouTube comment crawler

Shallow embedding of the crawler's core algorithms, translated from the
TypeScript source:

* `comment-downloader.ts` — JSON tree search (`searchDict`), retry policy
  (`ajaxRequest`), response normalization (`processAjaxResponse`), consent
  handling and the public comment generator;
* `commentService.ts` — the upsert/diff service over the `comments` and
  `comment_updates` tables;
* `crawlStatusService.ts` / the inngest trigger function — crawl restart
  semantics;
* `proxy-config.ts` — proxy rotation state and fetch-option rewriting.

JavaScript values occurring in responses are modelled by the inductive
`JValue`; JS field access, truthiness, string/number coercions and object
assignment are modelled explicitly.  Timestamps are abstract `Nat` ticks
supplied by the caller ("now").  Network and randomness are oracles passed
as explicit arguments.
-/

set_option maxHeartbeats 1000000

/-- A JSON-like JavaScript value (strings, integers, booleans, null,
arrays, objects with insertion-ordered string keys).  Numbers are modelled
as `Int`. -/
inductive JValue where
  | str : String → JValue
  | num : Int → JValue
  | bool : Bool → JValue
  | null : JValue
  | arr : List JValue → JValue
  | obj : List (String × JValue) → JValue
deriving Repr

namespace JValue

/-- JS field access `v.k` on an object: first entry with the key, `none`
(undefined) otherwise or on non-objects. -/
def getField : JValue → String → Option JValue
  | .obj entries, k => (entries.find? (fun kv => kv.1 = k)).map (·.2)
  | _, _ => none

/-- JS truthiness of a defined value: objects and arrays are truthy,
`null`/`false`/`0`/`""` are falsy. -/
def truthy : JValue → Bool
  | .str s => s ≠ ""
  | .num n => n ≠ 0
  | .bool b => b
  | .null => false
  | .arr _ => true
  | .obj _ => true

/-- JS truthiness of a possibly-undefined value (`undefined` is falsy). -/
def otruthy : Option JValue → Bool
  | some v => v.truthy
  | none => false

end JValue

/-- `searchDict(partial, key)` from `comment-downloader.ts`: a depth-first
scan over the JSON tree using an explicit stack.  Array elements are pushed
in order and popped from the top, so they are explored last-first; object
entries matching the key are yielded (in entry order) without descending
into them, the others are pushed, hence explored last-first. -/
def searchDict (key : String) : JValue → List JValue
  | .arr items => searchListRev key items
  | .obj entries => matchEntries key entries ++ searchEntriesRev key entries
  | _ => []
where
  /-- explore a pushed array segment: the element pushed last is explored
  first. -/
  searchListRev (key : String) : List JValue → List JValue
  | [] => []
  | x :: xs => searchListRev key xs ++ searchDict key x
  /-- values of key-matching entries, in entry order. -/
  matchEntries (key : String) : List (String × JValue) → List JValue
  | [] => []
  | (k, v) :: es => (if k = key then [v] else []) ++ matchEntries key es
  /-- explore non-matching entry values: the value pushed last is explored
  first. -/
  searchEntriesRev (key : String) : List (String × JValue) → List JValue
  | [] => []
  | (k, v) :: es =>
      searchEntriesRev key es ++ (if k = key then [] else searchDict key v)

/-! ## Response normalizer: next-continuation-token resolution
(`processAjaxResponse`, comment-downloader.ts) -/

/-- `action.continuationItems || []`: the items array of a
continuation-bearing action (empty when absent or not an array). -/
def continuationItemsOf (action : JValue) : List JValue :=
  match action.getField "continuationItems" with
  | some (.arr items) => items
  | _ => []

/-- The body of the inner loop: if `item.continuationItemRenderer` is
truthy, take the first `continuationEndpoint` found inside it and read
`continuationEndpoint?.continuationCommand?.token`; the token is adopted
(and the loops break) only when it is truthy. -/
def tokenOfItem (item : JValue) : Option JValue :=
  match item.getField "continuationItemRenderer" with
  | some cir =>
      if cir.truthy then
        match (searchDict "continuationEndpoint" cir).head? with
        | some ce =>
            match ce.getField "continuationCommand" with
            | some cc =>
                match cc.getField "token" with
                | some tok => if tok.truthy then some tok else none
                | none => none
            | none => none
        | none => none
      else none
  | none => none

/-- Inner `for (const item of action.continuationItems || [])` loop with
its `break` on the first adopted token. -/
def nextTokenOfItems : List JValue → Option JValue
  | [] => none
  | item :: rest =>
      match tokenOfItem item with
      | some t => some t
      | none => nextTokenOfItems rest

/-- Outer `for (const action of actions)` loop with
`if (nextContinuationToken) break`. -/
def nextTokenOfActions : List JValue → Option JValue
  | [] => none
  | action :: rest =>
      match nextTokenOfItems (continuationItemsOf action) with
      | some t => some t
      | none => nextTokenOfActions rest

/-- `actions = [...searchDict(response, 'reloadContinuationItemsCommand'),
...searchDict(response, 'appendContinuationItemsAction')]`. -/
def responseActions (response : JValue) : List JValue :=
  searchDict "reloadContinuationItemsCommand" response ++
    searchDict "appendContinuationItemsAction" response

/-- The `nextContinuationToken` computed by `processAjaxResponse`. -/
def processNextContinuationToken (response : JValue) : Option JValue :=
  nextTokenOfActions (responseActions response)

/-- Spec-side predicate: the action targets the primary comments section
(the target ids the spec's next-token rule refers to, as listed in the
older normalizer). -/
def isPrimarySectionAction (action : JValue) : Bool :=
  match action.getField "targetId" with
  | some (.str s) =>
      (s == "comments-section") ||
        (s == "engagement-panel-comments-section") ||
        (s == "shorts-engagement-panel-comments-section")
  | _ => false

/-- Spec-side predicate: the action is a reply-thread continuation action
(`targetId` starts with `comment-replies-item`). -/
def isReplyThreadAction (action : JValue) : Bool :=
  match action.getField "targetId" with
  | some (.str s) => ("comment-replies-item".toList).isPrefixOf s.toList
  | _ => false

/-- Amended-claim reference function: the first truthy continuation token
over all continuation items of all continuation-bearing actions, with no
filtering on the action's `targetId`. -/
def firstTokenAnySection (response : JValue) : Option JValue :=
  ((responseActions response).map continuationItemsOf).flatten.findSome? tokenOfItem

/-- Concrete continuation response whose only continuation item lives
under a reply-thread action (`targetId` = `comment-replies-item-abc`). -/
def replyOnlyResponse : JValue :=
  .obj [("response", .obj [("reloadContinuationItemsCommand", .obj
    [ ("targetId", .str "comment-replies-item-abc"),
      ("continuationItems", .arr
        [ .obj [("continuationItemRenderer", .obj
            [("continuationEndpoint", .obj
              [("continuationCommand", .obj [("token", .str "replyTok")])])])]
        ])
    ])])]

/-! ## Response normalizer: reply marking and parent inference -/

/-- JS `s.lastIndexOf(c)`: index of the last occurrence, `-1` if absent. -/
def jsLastIndexOf (c : Char) : List Char → Int
  | [] => -1
  | x :: xs =>
      let r := jsLastIndexOf c xs
      if r ≥ 0 then r + 1 else if x = c then 0 else -1

/-- JS `s.substring(0, e)`: a negative end index is clamped to 0. -/
def jsSubstring0 (s : List Char) (e : Int) : List Char := s.take e.toNat

/-- `reply: commentId.includes(".")` — the normalizer marks a comment as a
reply when its identifier contains the structural separator. -/
def commentReplyFlag (cid : List Char) : Bool := cid.contains '.'

/-- `comment.reply ? comment.cid.substring(0, comment.cid.lastIndexOf('.'))
: null` — parent identifier derivation in `CommentService.upsertComment`. -/
def parentCommentId (reply : Bool) (cid : List Char) : Option (List Char) :=
  if reply then some (jsSubstring0 cid (jsLastIndexOf '.' cid)) else none

/-- Parent linkage of a normalized comment: the upsert applied to the
reply flag the normalizer computed from the identifier. -/
def derivedParentId (cid : List Char) : Option (List Char) :=
  parentCommentId (commentReplyFlag cid) cid

/-! ## Protocol client: `ajaxRequest` retry policy -/

/-- Outcome of one attempt of `ajaxRequest`: an HTTP response with a
status code and (when the status is 200) a parsed JSON payload, or a
thrown transport error (a failed fetch, or a body that fails to parse,
both of which are caught by the surrounding `try`). -/
inductive AjaxOutcome where
  | response (status : Nat) (payload : JValue)
  | transportError
deriving Repr

/-- Observable step of the `ajaxRequest` loop: issuing attempt `i`,
sleeping an exponential-backoff delay, or sleeping the fixed delay. -/
inductive AjaxStep where
  | attempt (i : Nat)
  | backoffDelay (ms : Nat)
  | fixedDelay (ms : Nat)
deriving Repr, DecidableEq

/-- The `for (let i = 0; i < retries; i++)` loop of `ajaxRequest`
(comment-downloader.ts).  `o i` is the outcome of attempt `i`; `jitter i`
models the `Math.floor(Math.random() * 1000)` draw of iteration `i`, so
`randomDelay = sleep + jitter i`.  `fuel` is `retries - i`, the number of
remaining iterations.  A 200 returns the payload; a 403 or 413 returns the
empty object immediately; a 429 sleeps `randomDelay * 2 ^ i` and retries
(`continue` skips the fixed sleep); any other status or a transport error
falls through to the fixed `sleep` and retries; an exhausted loop returns
the empty object. -/
def ajaxLoop (o : Nat → AjaxOutcome) (jitter : Nat → Nat) (sleep : Nat) :
    Nat → Nat → JValue × List AjaxStep
  | _, 0 => (.obj [], [])
  | i, fuel + 1 =>
      match o i with
      | .response s p =>
          if s = 200 then (p, [.attempt i])
          else if s = 403 ∨ s = 413 ∨ s = 429 then
            if s = 429 then
              let d := (sleep + jitter i) * 2 ^ i
              let r := ajaxLoop o jitter sleep (i + 1) fuel
              (r.1, .attempt i :: .backoffDelay d :: r.2)
            else (.obj [], [.attempt i])
          else
            let r := ajaxLoop o jitter sleep (i + 1) fuel
            (r.1, .attempt i :: .fixedDelay sleep :: r.2)
      | .transportError =>
          let r := ajaxLoop o jitter sleep (i + 1) fuel
          (r.1, .attempt i :: .fixedDelay sleep :: r.2)

/-- `ajaxRequest` with its default `retries = 5`, starting at attempt 0. -/
def ajaxRequest (o : Nat → AjaxOutcome) (jitter : Nat → Nat) (sleep : Nat) :
    JValue × List AjaxStep :=
  ajaxLoop o jitter sleep 0 5

/-- Indices of the attempts recorded in a trace. -/
def attemptsOf (tr : List AjaxStep) : List Nat :=
  tr.filterMap fun s =>
    match s with
    | .attempt i => some i
    | _ => none

/-- The step immediately following `attempt i` in a trace, if any. -/
def stepAfterAttempt (i : Nat) : List AjaxStep → Option AjaxStep
  | [] => none
  | .attempt j :: rest =>
      if j = i then rest.head? else stepAfterAttempt i rest
  | _ :: rest => stepAfterAttempt i rest

/-! ## Comment upsert/diff service (`CommentService.upsertComment`) -/

/-- The normalized comment payload (`YoutubeComment`,
comment-downloader.ts).  `replies` is already a number there
(`Number.parseInt(...)` in the normalizer); `paid` is the optional
paid-chip text. -/
structure YoutubeComment where
  cid : String
  text : String
  time : String
  author : String
  channel : String
  votes : String
  replies : Int
  photo : String
  heart : Bool
  reply : Bool
  paid : Option String := none
deriving Repr, DecidableEq

/-- A row of the `comments` table.  Timestamps are abstract `Nat` ticks. -/
structure CommentsRow where
  comment_id : String
  video_id : String
  parent_comment_id : Option String
  text : String
  published_at : Option String
  author_display_name : String
  author_channel_id : String
  author_photo_url : String
  votes : Int
  reply_count : Int
  is_hearted : Bool
  is_paid : Bool
  raw_time_string : String
  first_seen_at : Nat
  last_updated_at : Nat
deriving Repr, DecidableEq

/-- A row of the append-only `comment_updates` audit table, as built by
`upsertComment`. -/
structure CommentUpdatesRow where
  comment_id : String
  attribute_name : String
  old_value : String
  new_value : String
deriving Repr, DecidableEq

/-- The relational state the comment service reads and writes. -/
structure CommentStore where
  comments : List CommentsRow
  comment_updates : List CommentUpdatesRow
deriving Repr, DecidableEq

/-- Decimal digits at the head of a character list, accumulated;
stops at the first non-digit (JS `parseInt("12abc") = 12`). -/
def takeDigitsVal : List Char → Int → Int
  | c :: cs, acc =>
      if c.isDigit then takeDigitsVal cs (acc * 10 + ((c.toNat - '0'.toNat : Nat) : Int))
      else acc
  | [], acc => acc

/-- JS `parseInt(s, 10) || 0`: skip leading whitespace, accept an optional
sign, parse leading decimal digits; `NaN` (no digit) and `0` both give 0. -/
def jsParseIntOr0 (s : List Char) : Int :=
  let t := s.dropWhile fun c => c = ' ' ∨ c = '\t' ∨ c = '\n' ∨ c = '\r'
  match t with
  | '-' :: rest =>
      if rest.head?.elim false Char.isDigit then -(takeDigitsVal rest 0) else 0
  | '+' :: rest =>
      if rest.head?.elim false Char.isDigit then takeDigitsVal rest 0 else 0
  | _ => if t.head?.elim false Char.isDigit then takeDigitsVal t 0 else 0

/-- JS truthiness of an optional string (`!!comment.paid`). -/
def jsTruthyOptStr : Option String → Bool
  | some s => s ≠ ""
  | none => false

/-- The `commentData` record built at the top of `upsertComment`
(`published_at` stays null: relative-date parsing is unimplemented).
`firstSeen` is supplied separately since `first_seen_at` is only set on
the insert path. -/
def commentDataRow (now : Nat) (c : YoutubeComment) (videoId : String)
    (firstSeen : Nat) : CommentsRow where
  comment_id := c.cid
  video_id := videoId
  parent_comment_id := (parentCommentId c.reply c.cid.toList).map fun l => String.mk l
  text := c.text
  published_at := none
  author_display_name := c.author
  author_channel_id := c.channel
  author_photo_url := c.photo
  votes := jsParseIntOr0 c.votes.toList
  reply_count := c.replies
  is_hearted := c.heart
  is_paid := jsTruthyOptStr c.paid
  raw_time_string := c.time
  first_seen_at := firstSeen
  last_updated_at := now

/-- `CommentService.upsertComment` (commentService.ts) on the success
path: look up the row by `comment_id`; if present, diff the four compared
attributes (text, votes, reply_count, is_hearted) in that order, staging an
audit row per differing field; apply the update (stamping
`last_updated_at`) and append the audit rows only when at least one field
differs; if absent, insert `commentData` with `first_seen_at = now`. -/
def upsertComment (now : Nat) (c : YoutubeComment) (videoId : String)
    (store : CommentStore) : CommentStore :=
  let data := commentDataRow now c videoId now
  match store.comments.find? (fun r => r.comment_id == c.cid) with
  | some existing =>
      let textChanged := existing.text ≠ data.text
      let votesChanged := existing.votes ≠ data.votes
      let repliesChanged := existing.reply_count ≠ data.reply_count
      let heartChanged := existing.is_hearted ≠ data.is_hearted
      let changes : List CommentUpdatesRow :=
        (if textChanged then
          [⟨c.cid, "text", existing.text, data.text⟩] else []) ++
        (if votesChanged then
          [⟨c.cid, "votes", toString existing.votes, toString data.votes⟩] else []) ++
        (if repliesChanged then
          [⟨c.cid, "reply_count", toString existing.reply_count,
            toString data.reply_count⟩] else []) ++
        (if heartChanged then
          [⟨c.cid, "is_hearted", toString existing.is_hearted,
            toString data.is_hearted⟩] else [])
      if changes.isEmpty then store
      else
        { comments := store.comments.map fun r =>
            if r.comment_id == c.cid then
              { r with
                text := if textChanged then data.text else r.text
                votes := if votesChanged then data.votes else r.votes
                reply_count :=
                  if repliesChanged then data.reply_count else r.reply_count
                is_hearted := if heartChanged then data.is_hearted else r.is_hearted
                last_updated_at := now }
            else r
          comment_updates := store.comment_updates ++ changes }
  | none =>
      { store with comments := store.comments ++ [data] }

/-! ## Crawl state machine: trigger/restart (`triggerCommentCrawl`,
`CrawlStatusService`) -/

/-- The crawl status enum (`PENDING | IN_PROGRESS | COMPLETED | FAILED`). -/
inductive CrawlStatusEnum where
  | PENDING
  | IN_PROGRESS
  | COMPLETED
  | FAILED
deriving Repr, DecidableEq

/-- A `crawl_status` row, with the fields the trigger logic touches.
`ytcfg` is the serialized session-configuration blob. -/
structure CrawlStatusRow where
  crawl_id : Nat
  video_id : String
  status : CrawlStatusEnum
  continuation_token : Option String
  ytcfg : Option JValue
  error_message : Option String
  updated_at : Nat
deriving Repr

/-- `CrawlStatusService.restartCrawl`: status back to PENDING,
`continuation_token`, `ytcfg` and `error_message` cleared to null. -/
def restartCrawl (now : Nat) (r : CrawlStatusRow) : CrawlStatusRow :=
  { r with
    status := .PENDING
    continuation_token := none
    ytcfg := none
    error_message := none
    updated_at := now }

/-- `CrawlStatusService.updateCrawlWithInitialToken`. -/
def updateCrawlWithInitialToken (now : Nat) (token : String) (ytcfg : JValue)
    (r : CrawlStatusRow) : CrawlStatusRow :=
  { r with
    continuation_token := some token
    ytcfg := some ytcfg
    updated_at := now }

/-- `CrawlStatusService.markCrawlCompleteNoToken`. -/
def markCrawlCompleteNoToken (now : Nat) (r : CrawlStatusRow) : CrawlStatusRow :=
  { r with status := .COMPLETED, updated_at := now }

/-- `CrawlStatusService.markCrawlFailed`. -/
def markCrawlFailed (now : Nat) (msg : String) (r : CrawlStatusRow) :
    CrawlStatusRow :=
  { r with status := .FAILED, error_message := some msg, updated_at := now }

/-- Observable step of the trigger handler. -/
inductive TriggerStep where
  | restartStep
  | initialFetch
  | updateInitialToken
  | markCompletedNoToken
  | markFailed
  | sendFetchPage
  | skip
deriving Repr, DecidableEq

/-- `triggerCommentCrawl` on an existing `crawl_status` row (inngest
index.ts).  `fetch` is the outcome of `getInitialCrawlData`: a thrown
error message, or a nullable continuation token plus the ytcfg.  A
COMPLETED or FAILED crawl is restarted (token/ytcfg/error cleared) and the
initial fetch
runs again; a PENDING or IN_PROGRESS crawl is skipped.  On a fetched
token the row is updated with it and a page-fetch event is emitted; on a
null token the crawl is marked COMPLETED; on a fetch error it is marked
FAILED with the prefixed message. -/
def triggerOnExistingCrawl (now : Nat)
    (fetch : Except String (Option String × JValue)) (r : CrawlStatusRow) :
    List TriggerStep × CrawlStatusRow :=
  if r.status = .COMPLETED ∨ r.status = .FAILED then
    let r1 := restartCrawl now r
    match fetch with
    | .error msg =>
        ([.restartStep, .initialFetch, .markFailed],
          markCrawlFailed now ("Initial fetch failed: " ++ msg) r1)
    | .ok (none, _) =>
        ([.restartStep, .initialFetch, .markCompletedNoToken],
          markCrawlCompleteNoToken now r1)
    | .ok (some tok, cfg) =>
        ([.restartStep, .initialFetch, .updateInitialToken, .sendFetchPage],
          updateCrawlWithInitialToken now tok cfg r1)
  else
    ([.skip], r)

/-! ## Proxy selector (`proxy-config.ts`) -/

/-- Proxy provider classes. -/
inductive ProxyProviderType where
  | DEFAULT
  | BRIGHT_DATA
  | WEBSHARE
  | OXYLABS
  | SMARTPROXY
  | NETNUT
  | PROXY_RACK
  | CUSTOM
deriving Repr, DecidableEq

/-- Rotation strategies. -/
inductive ProxyRotationStrategy where
  | ROUND_ROBIN
  | RANDOM
  | WEIGHTED
  | STICKY_SESSION
deriving Repr, DecidableEq

/-- A configured proxy provider.  `weight` is a JS number (rational
here); the counters mirror `consecutiveUses`/`maxConsecutiveUses`. -/
structure ProxyProvider where
  url : String
  username : Option String := none
  password : Option String := none
  ptype : ProxyProviderType := .DEFAULT
  weight : Option ℚ := none
  tags : List String := []
  maxConsecutiveUses : Option Nat := none
  consecutiveUses : Option Nat := none
deriving Repr, DecidableEq

/-- A basic `ProxyConfig` (url plus optional credentials). -/
structure ProxyConfig where
  url : String
  username : Option String := none
  password : Option String := none
deriving Repr, DecidableEq

/-- The module-level `proxyState`. -/
structure ProxyState where
  providers : List ProxyProvider
  enabled : Bool
  currentIndex : Nat
  rotationStrategy : ProxyRotationStrategy
  stickySessionMap : List (String × Nat)
deriving Repr, DecidableEq

/-- `configureProxies` applied to basic configs: each is converted to a
provider with default type, weight 1 and a zero consecutive-use counter;
the state is replaced wholesale and `currentIndex` reset. -/
def configureProxies (cfgs : List ProxyConfig)
    (strategy : ProxyRotationStrategy) : ProxyState where
  providers := cfgs.map fun c =>
    { url := c.url
      username := c.username
      password := c.password
      ptype := .DEFAULT
      weight := some 1
      consecutiveUses := some 0 }
  enabled := !cfgs.isEmpty
  currentIndex := 0
  rotationStrategy := strategy
  stickySessionMap := []

/-- `provider.weight || 1` (a zero weight is falsy in JS). -/
def jsWeightOr1 (w : Option ℚ) : ℚ :=
  match w with
  | some x => if x = 0 then 1 else x
  | none => 1

/-- The cumulative-weight draw of the WEIGHTED strategy: subtract weights
from `random` left to right, stopping at the first provider driving it to
or below zero (defaulting to index 0). -/
def weightedIndex (providers : List ProxyProvider) (random : ℚ) : Nat :=
  go providers random 0
where
  go : List ProxyProvider → ℚ → Nat → Nat
  | [], _, _ => 0
  | p :: ps, rem, i =>
      let rem1 := rem - jsWeightOr1 p.weight
      if rem1 ≤ 0 then i else go ps rem1 (i + 1)

/-- `getCurrentProxy(domain?)`: strategy-based index selection, then the
consecutive-use bookkeeping.  `rand` is the `Math.random()` draw of this
call (in `[0,1)`), used only by the RANDOM/WEIGHTED strategies and by a
fresh sticky-session assignment.  Returns the selected provider (with its
counter already bumped, as in the source, which mutates it before
returning) and the updated state.  An out-of-range index (possible only
via a stale sticky entry) yields no proxy. -/
def getCurrentProxy (rand : ℚ) (domain : Option String) (st : ProxyState) :
    Option ProxyProvider × ProxyState :=
  if !st.enabled || st.providers.isEmpty then (none, st)
  else
    let sel : Nat × ProxyState :=
      match st.rotationStrategy with
      | .RANDOM => ((rand * st.providers.length).floor.toNat, st)
      | .WEIGHTED =>
          let totalWeight :=
            st.providers.foldl (fun sum p => sum + jsWeightOr1 p.weight) 0
          (weightedIndex st.providers (rand * totalWeight), st)
      | .STICKY_SESSION =>
          match domain with
          | some d =>
              match (st.stickySessionMap.find? (fun kv => kv.1 == d)).map (·.2) with
              | some i => (i, st)
              | none =>
                  let i := (rand * st.providers.length).floor.toNat
                  ({ st with stickySessionMap := st.stickySessionMap ++ [(d, i)] },
                    i).swap
          | none =>
              (st.currentIndex,
                { st with
                  currentIndex := (st.currentIndex + 1) % st.providers.length })
      | .ROUND_ROBIN =>
          (st.currentIndex,
            { st with
              currentIndex := (st.currentIndex + 1) % st.providers.length })
    let selectedIndex := sel.1
    let st1 := sel.2
    match st1.providers.get? selectedIndex with
    | none => (none, st1)
    | some provider =>
        let uses := provider.consecutiveUses.getD 0 + 1
        let shouldReset :=
          match provider.maxConsecutiveUses with
          | some m => decide (m ≠ 0) && decide (m ≤ uses)
          | none => false
        let provider2 :=
          if shouldReset then
            { provider with consecutiveUses := some 0 }
          else { provider with consecutiveUses := some uses }
        let st2 := { st1 with providers := st1.providers.set selectedIndex provider2 }
        let st3 :=
          if shouldReset && decide (st.rotationStrategy = .ROUND_ROBIN) then
            { st2 with currentIndex := (selectedIndex + 1) % st2.providers.length }
          else st2
        (some provider2, st3)

/-! ## A small JS heap, for the frame property of
`applyProxyToFetchOptions` -/

/-- A JS heap value: a primitive or a reference to a heap object. -/
inductive HVal where
  | str : String → HVal
  | num : Int → HVal
  | bool : Bool → HVal
  | null : HVal
  | ref : Nat → HVal
deriving Repr, DecidableEq

/-- A heap object: a JS object with insertion-ordered string keys, or an
array. -/
inductive HObj where
  | obj : List (String × HVal) → HObj
  | arr : List HVal → HObj
deriving Repr, DecidableEq

/-- The heap: the object referenced by `HVal.ref r` lives at index `r`. -/
abbrev Heap := List HObj

/-- JS truthiness of a heap value (a reference is an object, hence
truthy). -/
def HVal.truthy : HVal → Bool
  | .str s => s ≠ ""
  | .num n => n ≠ 0
  | .bool b => b
  | .null => false
  | .ref _ => true

mutual

/-- The JSON tree denoted by a heap value, following references; `fuel`
bounds the depth (`JSON.stringify` accepts exactly the acyclic data, on
which some sufficient fuel exists). -/
def readBack (h : Heap) : Nat → HVal → Option JValue
  | _, .str s => some (.str s)
  | _, .num n => some (.num n)
  | _, .bool b => some (.bool b)
  | _, .null => some .null
  | 0, .ref _ => none
  | fuel + 1, .ref r =>
      match h.get? r with
      | some (.obj entries) => (readBackEntries h fuel entries).map JValue.obj
      | some (.arr items) => (readBackList h fuel items).map JValue.arr
      | none => none

/-- `readBack` over an object's entries. -/
def readBackEntries (h : Heap) (fuel : Nat) :
    List (String × HVal) → Option (List (String × JValue))
  | [] => some []
  | (k, v) :: rest =>
      match readBack h fuel v, readBackEntries h fuel rest with
      | some jv, some jr => some ((k, jv) :: jr)
      | _, _ => none

/-- `readBack` over an array's items. -/
def readBackList (h : Heap) (fuel : Nat) : List HVal → Option (List JValue)
  | [] => some []
  | v :: rest =>
      match readBack h fuel v, readBackList h fuel rest with
      | some jv, some jr => some (jv :: jr)
      | _, _ => none

end

mutual

/-- `JSON.parse(JSON.stringify(v))`: structurally copy `v`, allocating
every copied object fresh at the end of the heap.  `none` only when the
fuel runs out (cyclic data, which `JSON.stringify` rejects). -/
def copyVal (h : Heap) : Nat → HVal → Option (Heap × HVal)
  | _, .str s => some (h, .str s)
  | _, .num n => some (h, .num n)
  | _, .bool b => some (h, .bool b)
  | _, .null => some (h, .null)
  | 0, .ref _ => none
  | fuel + 1, .ref r =>
      match h.get? r with
      | some (.obj entries) =>
          match copyEntries h fuel entries with
          | some (h1, entries1) => some (h1 ++ [.obj entries1], .ref h1.length)
          | none => none
      | some (.arr items) =>
          match copyList h fuel items with
          | some (h1, items1) => some (h1 ++ [.arr items1], .ref h1.length)
          | none => none
      | none => none

/-- `copyVal` over an object's entries, threading the growing heap. -/
def copyEntries (h : Heap) (fuel : Nat) :
    List (String × HVal) → Option (Heap × List (String × HVal))
  | [] => some (h, [])
  | (k, v) :: rest =>
      match copyVal h fuel v with
      | some (h1, v1) =>
          match copyEntries h1 fuel rest with
          | some (h2, rest1) => some (h2, (k, v1) :: rest1)
          | none => none
      | none => none

/-- `copyVal` over an array's items, threading the growing heap. -/
def copyList (h : Heap) (fuel : Nat) : List HVal → Option (Heap × List HVal)
  | [] => some (h, [])
  | v :: rest =>
      match copyVal h fuel v with
      | some (h1, v1) =>
          match copyList h1 fuel rest with
          | some (h2, rest1) => some (h2, v1 :: rest1)
          | none => none
      | none => none

end

/-- Read field `k` of the object at index `r`. -/
def heapGetField (h : Heap) (r : Nat) (k : String) : Option HVal :=
  match h.get? r with
  | some (.obj entries) => (entries.find? fun kv => kv.1 == k).map (·.2)
  | _ => none

/-- JS property assignment on an object's entry list: an existing key is
overwritten in place, a new key appended. -/
def objSetEntry (entries : List (String × HVal)) (k : String) (v : HVal) :
    List (String × HVal) :=
  if entries.any fun kv => kv.1 == k then
    entries.map fun kv => if kv.1 == k then (k, v) else kv
  else entries ++ [(k, v)]

/-- Assign field `k` of the object at index `r` (no-op on a non-object,
where JS would throw). -/
def heapSetField (h : Heap) (r : Nat) (k : String) (v : HVal) : Heap :=
  match h.get? r with
  | some (.obj entries) => h.set r (.obj (objSetEntry entries k v))
  | _ => h

/-- `applyProxyToFetchOptions(options, domain?)` (proxy-config.ts) over
the explicit heap.  Select a proxy; with none selected, return the input
reference with the heap untouched.  Otherwise deep-copy the options
object, ensure `newOptions.cf` is an object (`if (!newOptions.cf)
newOptions.cf = {}`), set `newOptions.cf.proxy = { url }`, and set
`newOptions.cf.proxy.auth` when both credentials are truthy.  `none` only
when the copy runs out of fuel or `cf` holds a truthy primitive (where the
source, running in strict mode, would throw a TypeError). -/
def applyProxyToFetchOptions (rand : ℚ) (domain : Option String)
    (fuel : Nat) (h : Heap) (optionsRef : Nat) (st : ProxyState) :
    Option (Heap × HVal × ProxyState) :=
  let sel := getCurrentProxy rand domain st
  match sel.1 with
  | none => some (h, .ref optionsRef, sel.2)
  | some proxy =>
      match copyVal h fuel (.ref optionsRef) with
      | none => none
      | some (h1, newOpts) =>
          match newOpts with
          | .ref newRef =>
              let step1 : Heap × HVal :=
                match heapGetField h1 newRef "cf" with
                | some v =>
                    if v.truthy then (h1, v)
                    else
                      (heapSetField (h1 ++ [HObj.obj []]) newRef "cf"
                        (.ref h1.length), .ref h1.length)
                | none =>
                    (heapSetField (h1 ++ [HObj.obj []]) newRef "cf"
                      (.ref h1.length), .ref h1.length)
              match step1.2 with
              | .ref cfRef =>
                  let proxyRef := step1.1.length
                  let h3 := step1.1 ++ [HObj.obj [("url", .str proxy.url)]]
                  let h4 := heapSetField h3 cfRef "proxy" (.ref proxyRef)
                  let addAuth :=
                    (proxy.username.elim false fun s => s ≠ "") &&
                      (proxy.password.elim false fun s => s ≠ "")
                  let h5 :=
                    if addAuth then
                      heapSetField
                        (h4 ++ [HObj.obj
                          [("username", .str (proxy.username.getD "")),
                            ("password", .str (proxy.password.getD ""))]])
                        proxyRef "auth" (.ref h4.length)
                    else h4
                  some (h5, .ref newRef, sel.2)
              | _ => none
          | _ => none

/-- Every reference inside a heap value lies below `n`. -/
def HVal.refBelow (n : Nat) : HVal → Bool
  | .ref r => decide (r < n)
  | _ => true

/-- Every reference inside a heap value is at least `n`. -/
def HVal.refAtLeast (n : Nat) : HVal → Bool
  | .ref r => decide (n ≤ r)
  | _ => true

/-- The value is a primitive (not a reference). -/
def HVal.isPrim : HVal → Bool
  | .ref _ => false
  | _ => true

/-- Every reference stored in a heap object lies below `n`. -/
def HObj.refsBelow (n : Nat) : HObj → Bool
  | .obj entries => entries.all fun kv => kv.2.refBelow n
  | .arr items => items.all fun v => v.refBelow n

/-- A well-formed heap: every stored reference points into the heap. -/
def wfHeap (h : Heap) : Bool := h.all fun o => o.refsBelow h.length

/-- The `cf` field of the options object is well-typed in the sense of the
source's `RequestInit & { cf?: Record<string, unknown> }` annotation:
absent, a falsy primitive (e.g. `undefined`), or a plain object.  (A
truthy primitive would make the source throw when assigning `cf.proxy`; an
array is excluded by the type.) -/
def cfFieldOk (h : Heap) (r : Nat) : Bool :=
  match heapGetField h r "cf" with
  | some (.ref c) =>
      match h[c]? with
      | some (.obj _) => true
      | _ => false
  | some v => !v.truthy
  | none => true

/-! ## Consent-flow extraction (`getInitialCrawlData`) -/

/-- JS `s.includes(sub)`. -/
def jsIncludes (sub s : String) : Bool :=
  decide (List.IsInfix sub.toList s.toList)

/-- JS object assignment on the string-valued `params` record
(`params[k] = v`): an existing key is overwritten in place, a new key
appended. -/
def jsObjSet (m : List (String × String)) (k v : String) :
    List (String × String) :=
  if m.any fun kv => kv.1 == k then
    m.map fun kv => if kv.1 == k then (k, v) else kv
  else m ++ [(k, v)]

/-- The consent params object of `getInitialCrawlData`: every hidden-input
match of the body assigned in order, then the four fixed flags
`continue = youtubeUrl`, `set_eom = "False"`, `set_ytc = "True"`,
`set_apyt = "True"`. -/
def buildConsentParams (youtubeUrl : String)
    (hiddenInputs : List (String × String)) : List (String × String) :=
  let base := hiddenInputs.foldl (fun m kv => jsObjSet m kv.1 kv.2) []
  jsObjSet (jsObjSet (jsObjSet (jsObjSet base "continue" youtubeUrl)
    "set_eom" "False") "set_ytc" "True") "set_apyt" "True"

/-- An HTTP page response as the consent logic sees it: the final URL, the
hidden-input matches (`YT_HIDDEN_INPUT_RE` name/value captures, in match
order) of the body, and the body itself (abstract). -/
structure PageResponse (β : Type) where
  url : String
  hiddenInputs : List (String × String)
  body : β

/-- The consent-redirect phase of `getInitialCrawlData`: when the response
URL contains the consent marker, build the params from the body's hidden
inputs, POST them to the consent endpoint (the `consentPost` oracle) and
substitute the resulting response; otherwise keep the original.  Also
returns the posted payload, when one was posted. -/
def consentPhase {β : Type} (youtubeUrl : String) (res : PageResponse β)
    (consentPost : List (String × String) → PageResponse β) :
    PageResponse β × Option (List (String × String)) :=
  if jsIncludes "consent" res.url then
    let params := buildConsentParams youtubeUrl res.hiddenInputs
    (consentPost params, some params)
  else (res, none)

/-- The body every later parsing step of `getInitialCrawlData` (ytcfg
extraction, initial-data extraction) reads: the consent substitution has
already happened. -/
def getInitialParseInput {β : Type} (youtubeUrl : String)
    (res : PageResponse β)
    (consentPost : List (String × String) → PageResponse β) : β :=
  (consentPhase youtubeUrl res consentPost).1.body

/-! ## The public generator `getCommentsFromUrl` -/

/-- The page loop of `getCommentsFromUrl`: while a token remains, fetch
the page (an `.error` is an exception thrown by `ajaxRequest`/
`processAjaxResponse`, e.g. an embedded `externalErrorMessage`), run the
optional callback, yield the page's comments up to `maxComments`, and
continue with the returned next token.  Arguments after the oracles:
remaining observation fuel, current token, count yielded so far,
comments yielded so far.  Returns the comments yielded and the exception
that ended the loop, if any. -/
def commentPagesLoop
    (fetchPage : String → Except String (List YoutubeComment × Option String))
    (callback : Option (List YoutubeComment → String → Except String Unit))
    (maxComments : Option Nat) :
    Nat → Option String → Nat → List YoutubeComment →
      List YoutubeComment × Option String
  | _, none, _, acc => (acc, none)
  | 0, some _, _, acc => (acc, none)
  | fuel + 1, some tok, yielded, acc =>
      match fetchPage tok with
      | .error e => (acc, some e)
      | .ok (comments, next) =>
          let cbError : Option String :=
            match callback with
            | some cb =>
                match cb comments tok with
                | .error e => some e
                | .ok _ => none
            | none => none
          match cbError with
          | some e => (acc, some e)
          | none =>
              match maxComments with
              | some m =>
                  let toYield := comments.take (m - yielded)
                  let acc1 := acc ++ toYield
                  let yielded1 := yielded + toYield.length
                  if m ≤ yielded1 then (acc1, none)
                  else
                    commentPagesLoop fetchPage callback maxComments fuel next
                      yielded1 acc1
              | none =>
                  commentPagesLoop fetchPage callback maxComments fuel next
                    (yielded + comments.length) (acc ++ comments)

/-- The `try` body of `getCommentsFromUrl`: extract the video id from the
URL (`new URL` may throw; a missing `v` parameter throws the descriptive
error), acquire the initial crawl data (whose `.error` covers every
descriptive failure of `getInitialCrawlData`), then run the page loop.
Returns the comments yielded before normal termination or before the
first exception, and that exception, if any. -/
def getCommentsTryBody (youtubeUrl : String)
    (videoIdParse : Except String (Option String))
    (getInitial : String → Except String (Option String × JValue))
    (fetchPage : String → Except String (List YoutubeComment × Option String))
    (callback : Option (List YoutubeComment → String → Except String Unit))
    (maxComments : Option Nat) (fuel : Nat) :
    List YoutubeComment × Option String :=
  match videoIdParse with
  | .error e => ([], some e)
  | .ok none =>
      ([], some ("Could not extract video ID from URL: " ++ youtubeUrl))
  | .ok (some videoId) =>
      match getInitial videoId with
      | .error e => ([], some e)
      | .ok (initialToken, _ytcfg) =>
          commentPagesLoop fetchPage callback maxComments fuel initialToken 0 []

/-- `getCommentsFromUrl` as its consumer observes it: the whole body runs
inside `try`; the `catch` clause logs the error and returns, ending the
async generator normally.  `.ok cs` means the generator completed after
yielding `cs`; an `.error` would be an exception reaching the consumer. -/
def getCommentsFromUrlGen (youtubeUrl : String)
    (videoIdParse : Except String (Option String))
    (getInitial : String → Except String (Option String × JValue))
    (fetchPage : String → Except String (List YoutubeComment × Option String))
    (callback : Option (List YoutubeComment → String → Except String Unit))
    (maxComments : Option Nat) (fuel : Nat) :
    Except String (List YoutubeComment) :=
  let r := getCommentsTryBody youtubeUrl videoIdParse getInitial fetchPage
    callback maxComments fuel
  match r.2 with
  | some _ => .ok r.1
  | none => .ok r.1

/-! ## Concrete inputs used by witnesses -/

/-- A concrete normalized comment payload (a reply, votes text "9"). -/
def exComment : YoutubeComment where
  cid := "abc.def"
  text := "hello"
  time := "1 day ago"
  author := "auth"
  channel := "chan"
  votes := "9"
  replies := 2
  photo := "photo"
  heart := false
  reply := true
  paid := none

/-- A concrete normalized comment payload for the diff test (votes "9"). -/
def exComment6 : YoutubeComment where
  cid := "cid1"
  text := "hi"
  time := "1 day ago"
  author := "a"
  channel := "ch"
  votes := "9"
  replies := 3
  photo := "p"
  heart := false
  reply := false
  paid := none

/-- A stored row for `exComment6` that differs from it only in the vote
count (5 stored vs 9 incoming). -/
def exRow6 : CommentsRow where
  comment_id := "cid1"
  video_id := "vid"
  parent_comment_id := none
  text := "hi"
  published_at := none
  author_display_name := "a"
  author_channel_id := "ch"
  author_photo_url := "p"
  votes := 5
  reply_count := 3
  is_hearted := false
  is_paid := false
  raw_time_string := "1 day ago"
  first_seen_at := 10
  last_updated_at := 10

/-- A concrete attempt-outcome oracle: 429, then 503, then a transport
error, then 403. -/
def exOutcomes : Nat → AjaxOutcome := fun i =>
  if i = 0 then .response 429 .null
  else if i = 1 then .response 503 .null
  else if i = 2 then .transportError
  else .response 403 .null

/-- A concrete fetch-options heap: the options object at index 0 holds a
primitive and a reference to the headers object at index 1. -/
def exHeap : Heap :=
  [.obj [("method", .str "GET"), ("headers", .ref 1)],
    .obj [("X-Test", .str "Value")]]

/-- A proxy state with one provider carrying credentials. -/
def exProxyState : ProxyState :=
  configureProxies [⟨"http://p.example:8080", some "user", some "pw"⟩]
    .ROUND_ROBIN

/-! ## Helper lemmas -/

/-- Elements of a list prefix of length `n` are read back unchanged. -/
theorem take_set_of_le {α : Type} (l : List α) (n r : Nat) (x : α)
    (h : n ≤ r) : (l.set r x).take n = l.take n := by
  apply List.ext_getElem?
  intro i
  simp only [List.getElem?_take]
  split
  · rename_i hi
    rw [List.getElem?_set_ne (by omega)]
  · rfl

/-- Reading below the length of the left part of an append. -/
theorem getElem?_append_left {α : Type} (l₁ l₂ : List α) (r : Nat)
    (h : r < l₁.length) : (l₁ ++ l₂)[r]? = l₁[r]? := by
  rw [List.getElem?_append]
  exact if_pos h

/-- A character-level last-index is `-1` exactly on separator-free
strings. -/
theorem jsLastIndexOf_of_not_contains {c : Char} {s : List Char}
    (h : s.contains c = false) : jsLastIndexOf c s = -1 := by
  induction s with
  | nil => rfl
  | cons x xs ih =>
      simp only [List.contains_cons, Bool.or_eq_false_iff, beq_eq_false_iff_ne,
        ne_eq] at h
      rw [jsLastIndexOf, ih h.2]
      have hx : ¬x = c := fun hh => h.1 hh.symm
      simp [hx]

/-- On a separator-containing string, `lastIndexOf` names the position of
the last separator: the string splits as `p ++ c :: suf` with `suf`
separator-free and the index equal to `p.length`. -/
theorem jsLastIndexOf_decomp {c : Char} {s : List Char}
    (h : s.contains c = true) :
    ∃ p suf, jsLastIndexOf c s = p.length ∧ s = p ++ c :: suf ∧
      suf.contains c = false := by
  induction s with
  | nil => simp at h
  | cons x xs ih =>
      by_cases hxs : xs.contains c = true
      · obtain ⟨p, suf, h1, h2, h3⟩ := ih hxs
        refine ⟨x :: p, suf, ?_, by simp [h2], h3⟩
        rw [jsLastIndexOf]
        simp only [h1]
        have hge : ((p.length : Int)) ≥ 0 := Int.ofNat_nonneg _
        simp [hge]
      · have hx : x = c := by
          simp only [List.contains_cons, Bool.or_eq_true_iff] at h
          rcases h with h | h
          · exact (eq_of_beq h).symm
          · exact absurd h hxs
        refine ⟨[], xs, ?_, by simp [hx], by simpa using hxs⟩
        rw [jsLastIndexOf]
        rw [jsLastIndexOf_of_not_contains (by simpa using hxs)]
        simp [hx]

/-! ## C3 -/

/-- C3 — Parent linkage is derived purely structurally from the comment
identifier: an identifier containing `'.'` is marked as a reply and its
parent is the identifier truncated at the last `'.'` (the part before the
final separator, whose remainder is separator-free); an identifier
without `'.'` is not a reply and has no parent. -/
theorem C3_parent_inference (cid : List Char) :
    (cid.contains '.' = true →
      commentReplyFlag cid = true ∧
      ∃ p suf, derivedParentId cid = some p ∧ cid = p ++ '.' :: suf ∧
        suf.contains '.' = false) ∧
    (cid.contains '.' = false →
      commentReplyFlag cid = false ∧ derivedParentId cid = none) := by
  constructor
  · intro h
    refine ⟨h, ?_⟩
    obtain ⟨p, suf, h1, h2, h3⟩ := jsLastIndexOf_decomp h
    refine ⟨p, suf, ?_, h2, h3⟩
    unfold derivedParentId parentCommentId commentReplyFlag
    rw [if_pos h, h1]
    unfold jsSubstring0
    congr 1
    rw [Int.toNat_ofNat]
    conv_lhs => rw [h2]
    exact List.take_left p ('.' :: suf)
  · intro h
    refine ⟨h, ?_⟩
    have h' : '.' ∉ cid := by simpa using h
    simp [derivedParentId, parentCommentId, commentReplyFlag, h, h']

/-- C3 witness: `"abc.def"` is a reply with parent `"abc"`; `"abc"` is not
a reply and has no parent. -/
theorem C3_witness :
    (commentReplyFlag "abc.def".toList = true ∧
      ∃ p suf, derivedParentId "abc.def".toList = some p ∧
        "abc.def".toList = p ++ '.' :: suf ∧ suf.contains '.' = false) ∧
    (commentReplyFlag "abc".toList = false ∧
      derivedParentId "abc".toList = none) :=
  ⟨(C3_parent_inference "abc.def".toList).1 (by decide),
    (C3_parent_inference "abc".toList).2 (by decide)⟩

/-! ## C5 -/

/-- C5 — Restarting a terminal crawl is a full restart: for a progress row
in COMPLETED or FAILED state, the trigger clears `continuation_token`,
`ytcfg` and `error_message` to null (via `restartCrawl`), invokes the
initial fetch again, and the resulting row reflects only that fresh fetch
(the fetched token on success, COMPLETED on a null token, FAILED with the
prefixed message on a fetch error) — never the old token. -/
theorem C5_restart_semantics (now : Nat)
    (fetch : Except String (Option String × JValue)) (r : CrawlStatusRow)
    (hterm : r.status = .COMPLETED ∨ r.status = .FAILED) :
    (restartCrawl now r).continuation_token = none ∧
    (restartCrawl now r).ytcfg = none ∧
    (restartCrawl now r).error_message = none ∧
    TriggerStep.restartStep ∈ (triggerOnExistingCrawl now fetch r).1 ∧
    TriggerStep.initialFetch ∈ (triggerOnExistingCrawl now fetch r).1 ∧
    (∀ tok cfg, fetch = .ok (some tok, cfg) →
      (triggerOnExistingCrawl now fetch r).2 =
        updateCrawlWithInitialToken now tok cfg (restartCrawl now r) ∧
      (triggerOnExistingCrawl now fetch r).2.continuation_token = some tok) ∧
    (∀ cfg, fetch = .ok (none, cfg) →
      (triggerOnExistingCrawl now fetch r).2 =
        markCrawlCompleteNoToken now (restartCrawl now r) ∧
      (triggerOnExistingCrawl now fetch r).2.continuation_token = none) ∧
    (∀ msg, fetch = .error msg →
      (triggerOnExistingCrawl now fetch r).2 =
        markCrawlFailed now ("Initial fetch failed: " ++ msg)
          (restartCrawl now r)) := by
  refine ⟨rfl, rfl, rfl, ?_, ?_, ?_, ?_, ?_⟩ <;>
    simp only [triggerOnExistingCrawl, if_pos hterm]
  · cases fetch with
    | error msg => simp
    | ok v =>
        obtain ⟨tok, cfg⟩ := v
        cases tok <;> simp
  · cases fetch with
    | error msg => simp
    | ok v =>
        obtain ⟨tok, cfg⟩ := v
        cases tok <;> simp
  · intro tok cfg hf
    subst hf
    exact ⟨rfl, rfl⟩
  · intro cfg hf
    subst hf
    exact ⟨rfl, rfl⟩
  · intro msg hf
    subst hf
    rfl

/-- C5 witness: a COMPLETED crawl holding an old token, restarted with a
successful fetch of a fresh token. -/
theorem C5_witness :
    (restartCrawl 9
        ⟨1, "vid", .COMPLETED, some "oldTok", some (.obj []),
          some "old error", 3⟩).continuation_token = none ∧
    (triggerOnExistingCrawl 9 (.ok (some "newTok", .obj []))
        ⟨1, "vid", .COMPLETED, some "oldTok", some (.obj []),
          some "old error", 3⟩).2.continuation_token = some "newTok" := by
  have h := C5_restart_semantics 9 (.ok (some "newTok", .obj []))
    ⟨1, "vid", .COMPLETED, some "oldTok", some (.obj []),
      some "old error", 3⟩ (Or.inl rfl)
  exact ⟨h.1, (h.2.2.2.2.2.1 "newTok" (.obj []) rfl).2⟩

/-! ## C8 -/

/-- C8 — Round-robin proxy selection: with exactly three providers
configured (none with `maxConsecutiveUses`) and the round-robin strategy,
four successive selections return the first, second, third and first
provider, in that order, independent of the random draws. -/
theorem C8_round_robin (u1 u2 u3 : String) (r1 r2 r3 r4 : ℚ) :
    (getCurrentProxy r1 none
        (configureProxies [⟨u1, none, none⟩, ⟨u2, none, none⟩,
          ⟨u3, none, none⟩] .ROUND_ROBIN)).1.map (·.url) = some u1 ∧
    (getCurrentProxy r2 none
        (getCurrentProxy r1 none
          (configureProxies [⟨u1, none, none⟩, ⟨u2, none, none⟩,
            ⟨u3, none, none⟩] .ROUND_ROBIN)).2).1.map (·.url) = some u2 ∧
    (getCurrentProxy r3 none
        (getCurrentProxy r2 none
          (getCurrentProxy r1 none
            (configureProxies [⟨u1, none, none⟩, ⟨u2, none, none⟩,
              ⟨u3, none, none⟩] .ROUND_ROBIN)).2).2).1.map (·.url) = some u3 ∧
    (getCurrentProxy r4 none
        (getCurrentProxy r3 none
          (getCurrentProxy r2 none
            (getCurrentProxy r1 none
              (configureProxies [⟨u1, none, none⟩, ⟨u2, none, none⟩,
                ⟨u3, none, none⟩] .ROUND_ROBIN)).2).2).2).1.map (·.url) =
      some u1 := by
  refine ⟨rfl, rfl, rfl, ?_⟩
  simp [getCurrentProxy, configureProxies]

/-! ## C9 -/

/-- C9 — The public generator `getCommentsFromUrl` never propagates an
exception to its consumer: whatever the outcomes of video-id extraction,
initial-data acquisition, page fetches and callbacks, the generator ends
normally, having yielded exactly the comments produced before the first
internal failure (none after it). -/
theorem C9_generator_never_throws (youtubeUrl : String)
    (videoIdParse : Except String (Option String))
    (getInitial : String → Except String (Option String × JValue))
    (fetchPage : String → Except String (List YoutubeComment × Option String))
    (callback : Option (List YoutubeComment → String → Except String Unit))
    (maxComments : Option Nat) (fuel : Nat) :
    getCommentsFromUrlGen youtubeUrl videoIdParse getInitial fetchPage
        callback maxComments fuel =
      .ok (getCommentsTryBody youtubeUrl videoIdParse getInitial fetchPage
        callback maxComments fuel).1 := by
  cases h2 : (getCommentsTryBody youtubeUrl videoIdParse getInitial fetchPage
    callback maxComments fuel).2 <;>
  simp [getCommentsFromUrlGen, h2]

/-! ## C2 -/

/-- The inner item loop is the first hit of `tokenOfItem`. -/
theorem nextTokenOfItems_eq_findSome (items : List JValue) :
    nextTokenOfItems items = items.findSome? tokenOfItem := by
  induction items with
  | nil => rfl
  | cons item rest ih =>
      rw [nextTokenOfItems, List.findSome?_cons]
      cases tokenOfItem item <;> simp [ih]

/-- The two nested loops with their breaks compute the first hit of
`tokenOfItem` over the flattened item lists of all actions. -/
theorem nextTokenOfActions_eq_findSome (actions : List JValue) :
    nextTokenOfActions actions =
      (actions.map continuationItemsOf).flatten.findSome? tokenOfItem := by
  induction actions with
  | nil => rfl
  | cons a rest ih =>
      rw [nextTokenOfActions, List.map_cons, List.flatten_cons,
        List.findSome?_append, nextTokenOfItems_eq_findSome]
      cases h : (continuationItemsOf a).findSome? tokenOfItem <;>
        simp [ih, h, Option.or]

/-- C2 counterexample — the claim fails on the code: in a response whose
only continuation-bearing action is a reply-thread action (its `targetId`
starts with `comment-replies-item`; it matches no primary-section target
id), `processAjaxResponse` surfaces that reply-thread continuation token
as `nextContinuationToken`. -/
theorem C2_counterexample :
    processNextContinuationToken replyOnlyResponse =
      some (.str "replyTok") ∧
    (responseActions replyOnlyResponse).length = 1 ∧
    (responseActions replyOnlyResponse).all isReplyThreadAction = true ∧
    (responseActions replyOnlyResponse).all
      (fun a => !isPrimarySectionAction a) = true :=
  ⟨rfl, rfl, rfl, rfl⟩

/-- C2 amended — next-token resolution scans the continuation-bearing
actions and adopts the first continuation item carrying a truthy token,
with no filtering on the action's target section: the page-level
`nextContinuationToken` is the first such token over all actions'
items, and a reply-thread continuation appearing first is surfaced. -/
theorem C2_next_token_no_section_filter (response : JValue) :
    processNextContinuationToken response = firstTokenAnySection response := by
  unfold processNextContinuationToken firstTokenAnySection
  exact nextTokenOfActions_eq_findSome _

/-! ## C7 -/

/-- Assigning a fresh key appends it. -/
theorem jsObjSet_of_not_mem (m : List (String × String)) (k v : String)
    (h : ∀ kv ∈ m, kv.1 ≠ k) : jsObjSet m k v = m ++ [(k, v)] := by
  have hany : (m.any fun kv => kv.1 == k) = false := by
    rw [List.any_eq_false]
    intro kv hkv
    simpa using h kv hkv
  unfold jsObjSet
  rw [hany]
  simp

/-- Assigning pairwise-fresh keys in sequence appends them in order. -/
theorem foldl_jsObjSet_disjoint :
    ∀ (inputs acc : List (String × String)),
      (∀ kv ∈ inputs, ∀ kv2 ∈ acc, kv.1 ≠ kv2.1) →
      (inputs.map Prod.fst).Nodup →
      inputs.foldl (fun m kv => jsObjSet m kv.1 kv.2) acc = acc ++ inputs := by
  intro inputs
  induction inputs with
  | nil => intro acc _ _; simp
  | cons kv rest ih =>
      intro acc hd hn
      rw [List.foldl_cons,
        jsObjSet_of_not_mem _ _ _
          (fun kv2 h2 => (hd kv (List.mem_cons_self kv rest) kv2 h2).symm),
        ih (acc ++ [(kv.1, kv.2)]) ?_ ?_]
      · simp
      · intro kv' h' kv2 h2
        rcases List.mem_append.mp h2 with h2 | h2
        · exact hd kv' (List.mem_cons_of_mem _ h') kv2 h2
        · simp only [List.mem_singleton] at h2
          subst h2
          simp only [List.nodup_cons, List.map_cons] at hn
          intro hc
          exact hn.1 (hc ▸ List.mem_map_of_mem Prod.fst h')
      · exact (List.nodup_cons.mp (by simpa using hn)).2

/-- C7 counterexample — the claim fails on the code: for a body whose
single hidden input is named `continue` (value `"x"`), the consent
payload holds 4 entries, not 1 + 4, and the extracted pair is absent
(the fixed `continue` flag overwrote it). -/
theorem C7_counterexample :
    (buildConsentParams "https://www.youtube.com/watch?v=dummy"
        [("continue", "x")]).length = 4 ∧
    ("continue", "x") ∉
      buildConsentParams "https://www.youtube.com/watch?v=dummy"
        [("continue", "x")] := by
  exact ⟨rfl, by decide⟩

/-- C7 amended — when the response URL contains the consent marker and
the body's N hidden inputs have pairwise-distinct names, none equal to
one of the four fixed flag names, the consent POST payload is exactly
those N name/value pairs plus the four fixed flags (`continue`,
`set_eom`, `set_ytc`, `set_apyt`), and the substitution happens before
any config/initial-data parsing: the body handed to parsing is the one
returned by the consent POST.  (An input sharing a name with a fixed
flag, or with an earlier input, is overwritten instead.) -/
theorem C7_consent_extraction {β : Type} (youtubeUrl : String)
    (res : PageResponse β)
    (consentPost : List (String × String) → PageResponse β)
    (hconsent : jsIncludes "consent" res.url = true)
    (hnodup : (res.hiddenInputs.map Prod.fst).Nodup)
    (hfix : ∀ kv ∈ res.hiddenInputs,
      kv.1 ∉ (["continue", "set_eom", "set_ytc", "set_apyt"] : List String)) :
    buildConsentParams youtubeUrl res.hiddenInputs =
      res.hiddenInputs ++
        [("continue", youtubeUrl), ("set_eom", "False"),
          ("set_ytc", "True"), ("set_apyt", "True")] ∧
    (consentPhase youtubeUrl res consentPost).2 =
      some (buildConsentParams youtubeUrl res.hiddenInputs) ∧
    getInitialParseInput youtubeUrl res consentPost =
      (consentPost (buildConsentParams youtubeUrl res.hiddenInputs)).body := by
  have hbuild : buildConsentParams youtubeUrl res.hiddenInputs =
      res.hiddenInputs ++
        [("continue", youtubeUrl), ("set_eom", "False"),
          ("set_ytc", "True"), ("set_apyt", "True")] := by
    simp only [buildConsentParams]
    rw [foldl_jsObjSet_disjoint _ [] (by simp) hnodup, List.nil_append]
    rw [jsObjSet_of_not_mem _ "continue" _ (by
      intro kv hkv
      exact fun hc => hfix kv hkv (by simp [hc]))]
    rw [jsObjSet_of_not_mem _ "set_eom" _ (by
      intro kv hkv
      rcases List.mem_append.mp hkv with h | h
      · exact fun hc => hfix kv h (by simp [hc])
      · simp only [List.mem_singleton] at h
        subst h
        simp)]
    rw [jsObjSet_of_not_mem _ "set_ytc" _ (by
      intro kv hkv
      rcases List.mem_append.mp hkv with h | h
      · rcases List.mem_append.mp h with h | h
        · exact fun hc => hfix kv h (by simp [hc])
        · simp only [List.mem_singleton] at h
          subst h
          simp
      · simp only [List.mem_singleton] at h
        subst h
        simp)]
    rw [jsObjSet_of_not_mem _ "set_apyt" _ (by
      intro kv hkv
      rcases List.mem_append.mp hkv with h | h
      · rcases List.mem_append.mp h with h | h
        · rcases List.mem_append.mp h with h | h
          · exact fun hc => hfix kv h (by simp [hc])
          · simp only [List.mem_singleton] at h
            subst h
            simp
        · simp only [List.mem_singleton] at h
          subst h
          simp
      · simp only [List.mem_singleton] at h
        subst h
        simp)]
    simp
  refine ⟨hbuild, ?_, ?_⟩
  · unfold consentPhase
    rw [if_pos hconsent]
  · unfold getInitialParseInput consentPhase
    rw [if_pos hconsent]

/-- C7 witness: a consent-redirected response with two distinct hidden
inputs `foo` and `bar`; the payload is exactly those two pairs plus the
four flags, and the parsed body is the consent POST's body. -/
theorem C7_witness :
    buildConsentParams "https://www.youtube.com/watch?v=dummy"
        [("foo", "1"), ("bar", "2")] =
      [("foo", "1"), ("bar", "2"), ("continue",
        "https://www.youtube.com/watch?v=dummy"), ("set_eom", "False"),
        ("set_ytc", "True"), ("set_apyt", "True")] ∧
    getInitialParseInput "https://www.youtube.com/watch?v=dummy"
        (⟨"https://consent.youtube.com/m?continue=x",
          [("foo", "1"), ("bar", "2")], (7 : Nat)⟩ : PageResponse Nat)
        (fun ps => ⟨"https://www.youtube.com/watch?v=dummy", [],
          ps.length⟩) = 6 := by
  have h := C7_consent_extraction "https://www.youtube.com/watch?v=dummy"
    (⟨"https://consent.youtube.com/m?continue=x",
      [("foo", "1"), ("bar", "2")], (7 : Nat)⟩ : PageResponse Nat)
    (fun ps => ⟨"https://www.youtube.com/watch?v=dummy", [], ps.length⟩)
    (by decide) (by decide) (by decide)
  refine ⟨h.1, ?_⟩
  rw [h.2.2]
  simp only [h.1]
  rfl

/-! ## C1 -/

/-- C1 — Upsert is idempotent: starting from a store with no row for
`c.cid`, one upsert leaves exactly one `comments` row for `c.cid`
(appending no audit row), and a second upsert of the same payload changes
nothing: no `comment_updates` row, no update of the `comments` row, and
`first_seen_at` stays as the first call set it. -/
theorem C1_upsert_idempotent (now1 now2 : Nat) (c : YoutubeComment)
    (v : String) (store : CommentStore)
    (hnone : ∀ r ∈ store.comments, r.comment_id ≠ c.cid) :
    (upsertComment now1 c v store).comments.countP
        (fun r => r.comment_id == c.cid) = 1 ∧
    upsertComment now2 c v (upsertComment now1 c v store) =
      upsertComment now1 c v store ∧
    (upsertComment now1 c v store).comment_updates = store.comment_updates ∧
    ∃ row, (upsertComment now1 c v store).comments.find?
        (fun r => r.comment_id == c.cid) = some row ∧
      row.first_seen_at = now1 := by
  have hfind : store.comments.find? (fun r => r.comment_id == c.cid) = none := by
    rw [List.find?_eq_none]
    intro r hr
    simpa using hnone r hr
  have h1 : upsertComment now1 c v store =
      { store with
        comments := store.comments ++ [commentDataRow now1 c v now1] } := by
    simp only [upsertComment, hfind]
  have hpred : ((commentDataRow now1 c v now1).comment_id == c.cid) = true := by
    simp [commentDataRow]
  have hfind2 : (store.comments ++ [commentDataRow now1 c v now1]).find?
      (fun r => r.comment_id == c.cid) = some (commentDataRow now1 c v now1) := by
    rw [List.find?_append, hfind]
    simp [hpred]
  refine ⟨?_, ?_, ?_, ?_⟩
  · rw [h1]
    simp only [List.countP_append]
    rw [List.countP_eq_zero.mpr (by intro r hr; simpa using hnone r hr)]
    simp [hpred, List.countP_cons]
  · rw [h1]
    simp only [upsertComment, hfind2]
    simp [commentDataRow]
  · rw [h1]
  · rw [h1]
    exact ⟨commentDataRow now1 c v now1, hfind2, rfl⟩

/-- C1 witness: upserting the concrete payload twice into an empty store. -/
theorem C1_witness :
    (upsertComment 0 exComment "vid" ⟨[], []⟩).comments.countP
        (fun r => r.comment_id == exComment.cid) = 1 ∧
    upsertComment 1 exComment "vid" (upsertComment 0 exComment "vid" ⟨[], []⟩) =
      upsertComment 0 exComment "vid" ⟨[], []⟩ ∧
    (upsertComment 0 exComment "vid" ⟨[], []⟩).comment_updates = [] ∧
    ∃ row, (upsertComment 0 exComment "vid" ⟨[], []⟩).comments.find?
        (fun r => r.comment_id == exComment.cid) = some row ∧
      row.first_seen_at = 0 :=
  C1_upsert_idempotent 0 1 exComment "vid" ⟨[], []⟩ (by simp)

/-! ## C6 -/

/-- C6 — Diff correctness: reprocessing a stored comment whose only
difference is the vote count (5 stored, 9 incoming) appends exactly one
audit row (`attribute_name = "votes"`, `old_value = "5"`,
`new_value = "9"`), and the stored row is updated to votes 9 with
`last_updated_at` stamped — no other attribute changes and no other
audit row is produced. -/
theorem C6_diff_correctness (now : Nat) (c : YoutubeComment) (v : String)
    (store : CommentStore) (r : CommentsRow)
    (hfind : store.comments.find? (fun x => x.comment_id == c.cid) = some r)
    (htext : r.text = c.text)
    (hrep : r.reply_count = c.replies)
    (hheart : r.is_hearted = c.heart)
    (hvotes5 : r.votes = 5)
    (hnew9 : jsParseIntOr0 c.votes.toList = 9) :
    (upsertComment now c v store).comment_updates =
      store.comment_updates ++ [⟨c.cid, "votes", "5", "9"⟩] ∧
    (upsertComment now c v store).comments =
      store.comments.map fun x =>
        if x.comment_id == c.cid then
          { x with votes := 9, last_updated_at := now }
        else x := by
  have h5 : toString (5 : Int) = "5" := rfl
  have h9 : toString (9 : Int) = "9" := rfl
  have hnew9' : jsParseIntOr0 c.votes.data = 9 := hnew9
  simp only [upsertComment, hfind]
  simp [commentDataRow, htext, hrep, hheart, hvotes5, hnew9', h5, h9]

/-- C6 witness: the concrete stored row with votes 5 reprocessed with the
concrete payload carrying votes "9". -/
theorem C6_witness :
    (upsertComment 20 exComment6 "vid" ⟨[exRow6], []⟩).comment_updates =
      [⟨"cid1", "votes", "5", "9"⟩] ∧
    (upsertComment 20 exComment6 "vid" ⟨[exRow6], []⟩).comments =
      [{ exRow6 with votes := 9, last_updated_at := 20 }] := by
  have h := C6_diff_correctness 20 exComment6 "vid" ⟨[exRow6], []⟩ exRow6
    rfl rfl rfl rfl rfl rfl
  refine ⟨by simpa using h.1, ?_⟩
  rw [h.2]
  rfl

/-! ## C4 -/

theorem attemptsOf_nil : attemptsOf [] = [] := rfl

theorem attemptsOf_attempt (i : Nat) (tr : List AjaxStep) :
    attemptsOf (.attempt i :: tr) = i :: attemptsOf tr := rfl

theorem attemptsOf_backoff (d : Nat) (tr : List AjaxStep) :
    attemptsOf (.backoffDelay d :: tr) = attemptsOf tr := rfl

theorem attemptsOf_fixed (d : Nat) (tr : List AjaxStep) :
    attemptsOf (.fixedDelay d :: tr) = attemptsOf tr := rfl

theorem ajaxLoop_attempts_length (o : Nat → AjaxOutcome) (jitter : Nat → Nat)
    (sleep : Nat) :
    ∀ fuel i, (attemptsOf (ajaxLoop o jitter sleep i fuel).2).length ≤ fuel := by
  intro fuel
  induction fuel with
  | zero => intro i; simp [ajaxLoop, attemptsOf]
  | succ n ih =>
      intro i
      rw [ajaxLoop]
      rcases h : o i with ⟨s, p⟩ | _
      · by_cases h200 : s = 200
        · simp only [if_pos h200, attemptsOf_attempt, attemptsOf_nil,
            List.length_cons, List.length_nil]
          omega
        · by_cases h4 : s = 403 ∨ s = 413 ∨ s = 429
          · by_cases h429 : s = 429
            · simp only [if_neg h200, if_pos h4, if_pos h429,
                attemptsOf_attempt, attemptsOf_backoff, List.length_cons]
              exact Nat.succ_le_succ (ih (i + 1))
            · simp only [if_neg h200, if_pos h4, if_neg h429,
                attemptsOf_attempt, attemptsOf_nil, List.length_cons,
                List.length_nil]
              omega
          · simp only [if_neg h200, if_neg h4, attemptsOf_attempt,
              attemptsOf_fixed, List.length_cons]
            exact Nat.succ_le_succ (ih (i + 1))
      · simp only [attemptsOf_attempt, attemptsOf_fixed, List.length_cons]
        exact Nat.succ_le_succ (ih (i + 1))

theorem ajaxLoop_attempts_ge (o : Nat → AjaxOutcome) (jitter : Nat → Nat)
    (sleep : Nat) :
    ∀ fuel i j, j ∈ attemptsOf (ajaxLoop o jitter sleep i fuel).2 → i ≤ j := by
  intro fuel
  induction fuel with
  | zero => intro i j hj; simp [ajaxLoop, attemptsOf] at hj
  | succ n ih =>
      intro i j hj
      rw [ajaxLoop] at hj
      rcases h : o i with ⟨s, p⟩ | _ <;> rw [h] at hj
      · by_cases h200 : s = 200
        · simp only [if_pos h200, attemptsOf_attempt, attemptsOf_nil,
            List.mem_cons, List.not_mem_nil, or_false] at hj
          omega
        · by_cases h4 : s = 403 ∨ s = 413 ∨ s = 429
          · by_cases h429 : s = 429
            · simp only [if_neg h200, if_pos h4, if_pos h429,
                attemptsOf_attempt, attemptsOf_backoff, List.mem_cons] at hj
              rcases hj with hji | hj
              · omega
              · have := ih (i + 1) j hj
                omega
            · simp only [if_neg h200, if_pos h4, if_neg h429,
                attemptsOf_attempt, attemptsOf_nil, List.mem_cons,
                List.not_mem_nil, or_false] at hj
              omega
          · simp only [if_neg h200, if_neg h4, attemptsOf_attempt,
              attemptsOf_fixed, List.mem_cons] at hj
            rcases hj with hji | hj
            · omega
            · have := ih (i + 1) j hj
              omega
      · simp only [attemptsOf_attempt, attemptsOf_fixed, List.mem_cons] at hj
        rcases hj with hji | hj
        · omega
        · have := ih (i + 1) j hj
          omega

theorem ajaxLoop_terminal_empty (o : Nat → AjaxOutcome) (jitter : Nat → Nat)
    (sleep : Nat) :
    ∀ fuel i j s p, j ∈ attemptsOf (ajaxLoop o jitter sleep i fuel).2 →
      o j = .response s p → s = 403 ∨ s = 413 →
      (ajaxLoop o jitter sleep i fuel).1 = .obj [] ∧
      ∀ k ∈ attemptsOf (ajaxLoop o jitter sleep i fuel).2, k ≤ j := by
  intro fuel
  induction fuel with
  | zero => intro i j s p hj _ _; simp [ajaxLoop, attemptsOf] at hj
  | succ n ih =>
      intro i j s p hj hoj hs
      rw [ajaxLoop] at hj ⊢
      rcases h : o i with ⟨s0, p0⟩ | _ <;> rw [h] at hj
      · by_cases h200 : s0 = 200
        · simp only [if_pos h200, attemptsOf_attempt, attemptsOf_nil,
            List.mem_cons, List.not_mem_nil, or_false] at hj
          rw [hj, h] at hoj
          simp only [AjaxOutcome.response.injEq] at hoj
          obtain ⟨hss, -⟩ := hoj
          omega
        · by_cases h4 : s0 = 403 ∨ s0 = 413 ∨ s0 = 429
          · by_cases h429 : s0 = 429
            · simp only [h, if_neg h200, if_pos h4, if_pos h429,
                attemptsOf_attempt, attemptsOf_backoff, List.mem_cons] at hj ⊢
              rcases hj with hji | hj
              · rw [hji, h] at hoj
                simp only [AjaxOutcome.response.injEq] at hoj
                obtain ⟨hss, -⟩ := hoj
                omega
              · obtain ⟨hres, hall⟩ := ih (i + 1) j s p hj hoj hs
                refine ⟨hres, ?_⟩
                intro k hk
                rcases hk with hki | hk
                · have := ajaxLoop_attempts_ge o jitter sleep n (i + 1) j hj
                  omega
                · exact hall k hk
            · simp only [h, if_neg h200, if_pos h4, if_neg h429,
                attemptsOf_attempt, attemptsOf_nil, List.mem_cons,
                List.not_mem_nil, or_false] at hj ⊢
              exact ⟨by trivial, by intro k hk; omega⟩
          · simp only [h, if_neg h200, if_neg h4, attemptsOf_attempt,
              attemptsOf_fixed, List.mem_cons] at hj ⊢
            rcases hj with hji | hj
            · rw [hji, h] at hoj
              simp only [AjaxOutcome.response.injEq] at hoj
              obtain ⟨hss, -⟩ := hoj
              exact absurd (by omega : s0 = 403 ∨ s0 = 413 ∨ s0 = 429) h4
            · obtain ⟨hres, hall⟩ := ih (i + 1) j s p hj hoj hs
              refine ⟨hres, ?_⟩
              intro k hk
              rcases hk with hki | hk
              · have := ajaxLoop_attempts_ge o jitter sleep n (i + 1) j hj
                omega
              · exact hall k hk
      · simp only [h, attemptsOf_attempt, attemptsOf_fixed,
          List.mem_cons] at hj ⊢
        rcases hj with hji | hj
        · rw [hji, h] at hoj
          exact absurd hoj (by simp)
        · obtain ⟨hres, hall⟩ := ih (i + 1) j s p hj hoj hs
          refine ⟨hres, ?_⟩
          intro k hk
          rcases hk with hki | hk
          · have := ajaxLoop_attempts_ge o jitter sleep n (i + 1) j hj
            omega
          · exact hall k hk

theorem stepAfterAttempt_self (i : Nat) (tr : List AjaxStep) :
    stepAfterAttempt i (.attempt i :: tr) = tr.head? := by
  simp [stepAfterAttempt]

theorem stepAfterAttempt_ne (i j : Nat) (hne : i ≠ j) (tr : List AjaxStep) :
    stepAfterAttempt j (.attempt i :: tr) = stepAfterAttempt j tr := by
  simp [stepAfterAttempt, hne]

theorem stepAfterAttempt_backoff (j d : Nat) (tr : List AjaxStep) :
    stepAfterAttempt j (.backoffDelay d :: tr) = stepAfterAttempt j tr := rfl

theorem stepAfterAttempt_fixed (j d : Nat) (tr : List AjaxStep) :
    stepAfterAttempt j (.fixedDelay d :: tr) = stepAfterAttempt j tr := rfl

theorem ajaxLoop_backoff_429 (o : Nat → AjaxOutcome) (jitter : Nat → Nat)
    (sleep : Nat) :
    ∀ fuel i j p, j ∈ attemptsOf (ajaxLoop o jitter sleep i fuel).2 →
      o j = .response 429 p →
      stepAfterAttempt j (ajaxLoop o jitter sleep i fuel).2 =
        some (.backoffDelay ((sleep + jitter j) * 2 ^ j)) := by
  intro fuel
  induction fuel with
  | zero => intro i j p hj _; simp [ajaxLoop, attemptsOf] at hj
  | succ n ih =>
      intro i j p hj hoj
      rw [ajaxLoop] at hj ⊢
      rcases h : o i with ⟨s0, p0⟩ | _ <;> rw [h] at hj
      · by_cases h200 : s0 = 200
        · simp only [if_pos h200, attemptsOf_attempt, attemptsOf_nil,
            List.mem_cons, List.not_mem_nil, or_false] at hj
          rw [hj, h] at hoj
          simp only [AjaxOutcome.response.injEq] at hoj
          obtain ⟨hss, -⟩ := hoj
          omega
        · by_cases h4 : s0 = 403 ∨ s0 = 413 ∨ s0 = 429
          · by_cases h429 : s0 = 429
            · simp only [h, if_neg h200, if_pos h4, if_pos h429,
                attemptsOf_attempt, attemptsOf_backoff, List.mem_cons] at hj ⊢
              rcases hj with hji | hj
              · rw [hji, stepAfterAttempt_self]
                rfl
              · have hge := ajaxLoop_attempts_ge o jitter sleep n (i + 1) j hj
                rw [stepAfterAttempt_ne i j (by omega),
                  stepAfterAttempt_backoff]
                exact ih (i + 1) j p hj hoj
            · simp only [h, if_neg h200, if_pos h4, if_neg h429,
                attemptsOf_attempt, attemptsOf_nil, List.mem_cons,
                List.not_mem_nil, or_false] at hj ⊢
              rw [hj, h] at hoj
              simp only [AjaxOutcome.response.injEq] at hoj
              obtain ⟨hss, -⟩ := hoj
              exact absurd hss h429
          · simp only [h, if_neg h200, if_neg h4, attemptsOf_attempt,
              attemptsOf_fixed, List.mem_cons] at hj ⊢
            rcases hj with hji | hj
            · rw [hji, h] at hoj
              simp only [AjaxOutcome.response.injEq] at hoj
              obtain ⟨hss, -⟩ := hoj
              exact absurd (by omega : s0 = 403 ∨ s0 = 413 ∨ s0 = 429) h4
            · have hge := ajaxLoop_attempts_ge o jitter sleep n (i + 1) j hj
              rw [stepAfterAttempt_ne i j (by omega), stepAfterAttempt_fixed]
              exact ih (i + 1) j p hj hoj
      · simp only [h, attemptsOf_attempt, attemptsOf_fixed,
          List.mem_cons] at hj ⊢
        rcases hj with hji | hj
        · rw [hji, h] at hoj
          exact absurd hoj (by simp)
        · have hge := ajaxLoop_attempts_ge o jitter sleep n (i + 1) j hj
          rw [stepAfterAttempt_ne i j (by omega), stepAfterAttempt_fixed]
          exact ih (i + 1) j p hj hoj

theorem ajaxLoop_fixed_delay (o : Nat → AjaxOutcome) (jitter : Nat → Nat)
    (sleep : Nat) :
    ∀ fuel i j, j ∈ attemptsOf (ajaxLoop o jitter sleep i fuel).2 →
      (o j = .transportError ∨
        ∃ s p, o j = .response s p ∧ s ≠ 200 ∧ s ≠ 403 ∧ s ≠ 413 ∧ s ≠ 429) →
      stepAfterAttempt j (ajaxLoop o jitter sleep i fuel).2 =
        some (.fixedDelay sleep) := by
  intro fuel
  induction fuel with
  | zero => intro i j hj _; simp [ajaxLoop, attemptsOf] at hj
  | succ n ih =>
      intro i j hj hoth
      rw [ajaxLoop] at hj ⊢
      rcases h : o i with ⟨s0, p0⟩ | _ <;> rw [h] at hj
      · by_cases h200 : s0 = 200
        · simp only [if_pos h200, attemptsOf_attempt, attemptsOf_nil,
            List.mem_cons, List.not_mem_nil, or_false] at hj
          rcases hoth with ht | ⟨s, p, heq, hne, -, -, -⟩
          · rw [hj, h] at ht
            exact absurd ht (by simp)
          · rw [hj, h] at heq
            simp only [AjaxOutcome.response.injEq] at heq
            obtain ⟨hss, -⟩ := heq
            omega
        · by_cases h4 : s0 = 403 ∨ s0 = 413 ∨ s0 = 429
          · by_cases h429 : s0 = 429
            · simp only [h, if_neg h200, if_pos h4, if_pos h429,
                attemptsOf_attempt, attemptsOf_backoff, List.mem_cons] at hj ⊢
              rcases hj with hji | hj
              · rcases hoth with ht | ⟨s, p, heq, -, -, -, hne⟩
                · rw [hji, h] at ht
                  exact absurd ht (by simp)
                · rw [hji, h] at heq
                  simp only [AjaxOutcome.response.injEq] at heq
                  obtain ⟨hss, -⟩ := heq
                  omega
              · have hge := ajaxLoop_attempts_ge o jitter sleep n (i + 1) j hj
                rw [stepAfterAttempt_ne i j (by omega),
                  stepAfterAttempt_backoff]
                exact ih (i + 1) j hj hoth
            · simp only [h, if_neg h200, if_pos h4, if_neg h429,
                attemptsOf_attempt, attemptsOf_nil, List.mem_cons,
                List.not_mem_nil, or_false] at hj ⊢
              rcases hoth with ht | ⟨s, p, heq, -, h403, h413, -⟩
              · rw [hj, h] at ht
                exact absurd ht (by simp)
              · rw [hj, h] at heq
                simp only [AjaxOutcome.response.injEq] at heq
                obtain ⟨hss, -⟩ := heq
                rcases h4 with h4 | h4 | h4 <;> omega
          · simp only [h, if_neg h200, if_neg h4, attemptsOf_attempt,
              attemptsOf_fixed, List.mem_cons] at hj ⊢
            rcases hj with hji | hj
            · rw [hji, stepAfterAttempt_self]
              rfl
            · have hge := ajaxLoop_attempts_ge o jitter sleep n (i + 1) j hj
              rw [stepAfterAttempt_ne i j (by omega), stepAfterAttempt_fixed]
              exact ih (i + 1) j hj hoth
      · simp only [h, attemptsOf_attempt, attemptsOf_fixed,
          List.mem_cons] at hj ⊢
        rcases hj with hji | hj
        · rw [hji, stepAfterAttempt_self]
          rfl
        · have hge := ajaxLoop_attempts_ge o jitter sleep n (i + 1) j hj
          rw [stepAfterAttempt_ne i j (by omega), stepAfterAttempt_fixed]
          exact ih (i + 1) j hj hoth

theorem ajaxLoop_no200_empty (o : Nat → AjaxOutcome) (jitter : Nat → Nat)
    (sleep : Nat) :
    ∀ fuel i,
      (∀ j ∈ attemptsOf (ajaxLoop o jitter sleep i fuel).2,
        ∀ p, o j ≠ .response 200 p) →
      (ajaxLoop o jitter sleep i fuel).1 = .obj [] := by
  intro fuel
  induction fuel with
  | zero => intro i _; rfl
  | succ n ih =>
      intro i hno
      rw [ajaxLoop] at hno ⊢
      rcases h : o i with ⟨s0, p0⟩ | _ <;> rw [h] at hno
      · by_cases h200 : s0 = 200
        · exfalso
          refine hno i ?_ p0 ?_
          · simp [if_pos h200, attemptsOf_attempt]
          · rw [h, h200]
        · by_cases h4 : s0 = 403 ∨ s0 = 413 ∨ s0 = 429
          · by_cases h429 : s0 = 429
            · simp only [h, if_neg h200, if_pos h4, if_pos h429,
                attemptsOf_attempt, attemptsOf_backoff, List.mem_cons] at hno ⊢
              exact ih (i + 1) fun j hj p hp => hno j (Or.inr hj) p hp
            · simp only [h, if_neg h200, if_pos h4, if_neg h429]
          · simp only [h, if_neg h200, if_neg h4, attemptsOf_attempt,
              attemptsOf_fixed, List.mem_cons] at hno ⊢
            exact ih (i + 1) fun j hj p hp => hno j (Or.inr hj) p hp
      · simp only [h, attemptsOf_attempt, attemptsOf_fixed,
          List.mem_cons] at hno ⊢
        exact ih (i + 1) fun j hj p hp => hno j (Or.inr hj) p hp

/-- C4 — The `ajaxRequest` retry policy: at most 5 attempts; a reached 403
or 413 response makes the call return the empty object immediately, with
no later attempt; a reached 429 is followed by the exponentially growing
jittered backoff delay `(sleep + jitter) * 2 ^ attempt`; any other
reached non-200 response or transport error is followed by the fixed
`sleep` delay; and when no attempt returns 200 the call returns the empty
object instead of raising. -/
theorem C4_ajax_retry_policy (o : Nat → AjaxOutcome) (jitter : Nat → Nat)
    (sleep : Nat) :
    (attemptsOf (ajaxRequest o jitter sleep).2).length ≤ 5 ∧
    (∀ j s p, j ∈ attemptsOf (ajaxRequest o jitter sleep).2 →
      o j = .response s p → s = 403 ∨ s = 413 →
      (ajaxRequest o jitter sleep).1 = .obj [] ∧
      ∀ k ∈ attemptsOf (ajaxRequest o jitter sleep).2, k ≤ j) ∧
    (∀ j p, j ∈ attemptsOf (ajaxRequest o jitter sleep).2 →
      o j = .response 429 p →
      stepAfterAttempt j (ajaxRequest o jitter sleep).2 =
        some (.backoffDelay ((sleep + jitter j) * 2 ^ j))) ∧
    (∀ j, j ∈ attemptsOf (ajaxRequest o jitter sleep).2 →
      (o j = .transportError ∨
        ∃ s p, o j = .response s p ∧ s ≠ 200 ∧ s ≠ 403 ∧ s ≠ 413 ∧ s ≠ 429) →
      stepAfterAttempt j (ajaxRequest o jitter sleep).2 =
        some (.fixedDelay sleep)) ∧
    ((∀ j ∈ attemptsOf (ajaxRequest o jitter sleep).2,
        ∀ p, o j ≠ .response 200 p) →
      (ajaxRequest o jitter sleep).1 = .obj []) := by
  refine ⟨ajaxLoop_attempts_length o jitter sleep 5 0,
    fun j s p hj hoj hs =>
      ajaxLoop_terminal_empty o jitter sleep 5 0 j s p hj hoj hs,
    fun j p hj hoj => ajaxLoop_backoff_429 o jitter sleep 5 0 j p hj hoj,
    fun j hj hoth => ajaxLoop_fixed_delay o jitter sleep 5 0 j hj hoth,
    fun hno => ajaxLoop_no200_empty o jitter sleep 5 0 hno⟩

/-- C4 witness: the concrete oracle (429, then 503, then a transport
error, then 403) with jitter 7 and sleep 100. -/
theorem C4_witness :
    (ajaxRequest exOutcomes (fun _ => 7) 100).1 = .obj [] ∧
    stepAfterAttempt 0 (ajaxRequest exOutcomes (fun _ => 7) 100).2 =
      some (.backoffDelay ((100 + 7) * 2 ^ 0)) ∧
    stepAfterAttempt 1 (ajaxRequest exOutcomes (fun _ => 7) 100).2 =
      some (.fixedDelay 100) ∧
    stepAfterAttempt 2 (ajaxRequest exOutcomes (fun _ => 7) 100).2 =
      some (.fixedDelay 100) ∧
    (∀ k ∈ attemptsOf (ajaxRequest exOutcomes (fun _ => 7) 100).2, k ≤ 3) := by
  have h := C4_ajax_retry_policy exOutcomes (fun _ => 7) 100
  refine ⟨(h.2.1 3 403 .null (by decide) rfl (Or.inl rfl)).1,
    h.2.2.1 0 .null (by decide) rfl,
    h.2.2.2.1 1 (by decide)
      (Or.inr ⟨503, .null, rfl, by decide, by decide, by decide, by decide⟩),
    h.2.2.2.1 2 (by decide) (Or.inl rfl),
    (h.2.1 3 403 .null (by decide) rfl (Or.inl rfl)).2⟩

theorem prefix_getElem? {α : Type} {l l' : List α} (hp : l <+: l') {r : Nat}
    (hr : r < l.length) : l'[r]? = l[r]? := by
  obtain ⟨t, rfl⟩ := hp
  exact getElem?_append_left l t r hr

theorem prefix_take_eq {α : Type} {l l' : List α} (hp : l <+: l') :
    l'.take l.length = l := by
  obtain ⟨t, rfl⟩ := hp
  exact List.take_left l t

theorem copyVal_prim (h : Heap) (fuel : Nat) (v : HVal)
    (hp : v.isPrim = true) : copyVal h fuel v = some (h, v) := by
  cases v with
  | ref r => simp [HVal.isPrim] at hp
  | str s => simp [copyVal]
  | num n => simp [copyVal]
  | bool b => simp [copyVal]
  | null => simp [copyVal]

theorem copyEntries_nil_eq (h : Heap) (fuel : Nat) (h1 : Heap)
    (l1 : List (String × HVal))
    (hc : copyEntries h fuel [] = some (h1, l1)) : h1 = h ∧ l1 = [] := by
  simp [copyEntries] at hc
  exact ⟨hc.1.symm, hc.2⟩

theorem copyEntries_cons_eq (h : Heap) (fuel : Nat) (kv : String × HVal)
    (rest : List (String × HVal)) (h1 : Heap) (l1 : List (String × HVal))
    (hc : copyEntries h fuel (kv :: rest) = some (h1, l1)) :
    ∃ ha va rest1, copyVal h fuel kv.2 = some (ha, va) ∧
      copyEntries ha fuel rest = some (h1, rest1) ∧
      l1 = (kv.1, va) :: rest1 := by
  rw [copyEntries] at hc
  cases hcv : copyVal h fuel kv.2 with
  | none => rw [hcv] at hc; exact absurd hc (by simp)
  | some pa =>
      obtain ⟨ha, va⟩ := pa
      rw [hcv] at hc
      dsimp only at hc
      cases hce : copyEntries ha fuel rest with
      | none =>
          rw [hce] at hc
          exact absurd hc (by simp)
      | some pb =>
          obtain ⟨hb, rest1⟩ := pb
          rw [hce] at hc
          dsimp only at hc
          simp only [Option.some.injEq, Prod.mk.injEq] at hc
          exact ⟨ha, va, rest1, rfl, hc.1 ▸ hce, hc.2.symm⟩

theorem copyList_nil_eq (h : Heap) (fuel : Nat) (h1 : Heap) (l1 : List HVal)
    (hc : copyList h fuel [] = some (h1, l1)) : h1 = h ∧ l1 = [] := by
  simp [copyList] at hc
  exact ⟨hc.1.symm, hc.2⟩

theorem copyList_cons_eq (h : Heap) (fuel : Nat) (v : HVal)
    (rest : List HVal) (h1 : Heap) (l1 : List HVal)
    (hc : copyList h fuel (v :: rest) = some (h1, l1)) :
    ∃ ha va rest1, copyVal h fuel v = some (ha, va) ∧
      copyList ha fuel rest = some (h1, rest1) ∧ l1 = va :: rest1 := by
  rw [copyList] at hc
  cases hcv : copyVal h fuel v with
  | none => rw [hcv] at hc; exact absurd hc (by simp)
  | some pa =>
      obtain ⟨ha, va⟩ := pa
      rw [hcv] at hc
      dsimp only at hc
      cases hce : copyList ha fuel rest with
      | none =>
          rw [hce] at hc
          exact absurd hc (by simp)
      | some pb =>
          obtain ⟨hb, rest1⟩ := pb
          rw [hce] at hc
          dsimp only at hc
          simp only [Option.some.injEq, Prod.mk.injEq] at hc
          exact ⟨ha, va, rest1, rfl, hc.1 ▸ hce, hc.2.symm⟩

theorem copyVal_ref_eq (h : Heap) (fuel : Nat) (r : Nat) (h1 : Heap)
    (v1 : HVal) (hc : copyVal h fuel (.ref r) = some (h1, v1)) :
    ∃ fuel1, fuel = fuel1 + 1 ∧
      ((∃ entries h2 entries1, h[r]? = some (.obj entries) ∧
          copyEntries h fuel1 entries = some (h2, entries1) ∧
          h1 = h2 ++ [.obj entries1] ∧ v1 = .ref h2.length) ∨
        (∃ items h2 items1, h[r]? = some (.arr items) ∧
          copyList h fuel1 items = some (h2, items1) ∧
          h1 = h2 ++ [.arr items1] ∧ v1 = .ref h2.length)) := by
  cases fuel with
  | zero => simp [copyVal] at hc
  | succ n =>
      refine ⟨n, rfl, ?_⟩
      rw [copyVal, List.get?_eq_getElem?] at hc
      cases hg : h[r]? with
      | none =>
          rw [hg] at hc
          exact absurd hc (by simp)
      | some o =>
          rw [hg] at hc
          cases o with
          | obj entries =>
              dsimp only at hc
              cases hce : copyEntries h n entries with
              | none => rw [hce] at hc; exact absurd hc (by simp)
              | some pa =>
                  obtain ⟨h2, entries1⟩ := pa
                  rw [hce] at hc
                  dsimp only at hc
                  simp only [Option.some.injEq, Prod.mk.injEq] at hc
                  exact Or.inl ⟨entries, h2, entries1, rfl, hce, hc.1.symm,
                    hc.2.symm⟩
          | arr items =>
              dsimp only at hc
              cases hce : copyList h n items with
              | none => rw [hce] at hc; exact absurd hc (by simp)
              | some pa =>
                  obtain ⟨h2, items1⟩ := pa
                  rw [hce] at hc
                  dsimp only at hc
                  simp only [Option.some.injEq, Prod.mk.injEq] at hc
                  exact Or.inr ⟨items, h2, items1, rfl, hce, hc.1.symm,
                    hc.2.symm⟩

theorem copyVal_extends :
    ∀ fuel h v h1 v1, copyVal h fuel v = some (h1, v1) → h <+: h1 := by
  intro fuel
  induction fuel with
  | zero =>
      intro h v h1 v1 hc
      cases v with
      | ref r =>
          obtain ⟨f1, hf, -⟩ := copyVal_ref_eq _ _ _ _ _ hc
          exact absurd hf (by omega)
      | str s => simp [copyVal] at hc; obtain ⟨rfl, -⟩ := hc; exact List.prefix_refl h
      | num m => simp [copyVal] at hc; obtain ⟨rfl, -⟩ := hc; exact List.prefix_refl h
      | bool b => simp [copyVal] at hc; obtain ⟨rfl, -⟩ := hc; exact List.prefix_refl h
      | null => simp [copyVal] at hc; obtain ⟨rfl, -⟩ := hc; exact List.prefix_refl h
  | succ n ihn =>
      intro h v h1 v1 hc
      cases v with
      | ref r =>
          obtain ⟨f1, hf, hcase⟩ := copyVal_ref_eq _ _ _ _ _ hc
          have hf1 : f1 = n := by omega
          subst hf1
          rcases hcase with ⟨entries, h2, e1, -, hce, rfl, -⟩ |
            ⟨items, h2, i1, -, hce, rfl, -⟩
          · refine (?_ : h <+: h2).trans ⟨[HObj.obj e1], rfl⟩
            clear hc
            induction entries generalizing h h2 e1 with
            | nil =>
                obtain ⟨rfl, -⟩ := copyEntries_nil_eq _ _ _ _ hce
                exact List.prefix_refl _
            | cons kv rest ih =>
                obtain ⟨ha, va, rest1, hcv, hce2, -⟩ :=
                  copyEntries_cons_eq _ _ _ _ _ _ hce
                exact (ihn h kv.2 ha va hcv).trans (ih ha h2 rest1 hce2)
          · refine (?_ : h <+: h2).trans ⟨[HObj.arr i1], rfl⟩
            clear hc
            induction items generalizing h h2 i1 with
            | nil =>
                obtain ⟨rfl, -⟩ := copyList_nil_eq _ _ _ _ hce
                exact List.prefix_refl _
            | cons v0 rest ih =>
                obtain ⟨ha, va, rest1, hcv, hce2, -⟩ :=
                  copyList_cons_eq _ _ _ _ _ _ hce
                exact (ihn h v0 ha va hcv).trans (ih ha h2 rest1 hce2)
      | str s => simp [copyVal] at hc; obtain ⟨rfl, -⟩ := hc; exact List.prefix_refl h
      | num m => simp [copyVal] at hc; obtain ⟨rfl, -⟩ := hc; exact List.prefix_refl h
      | bool b => simp [copyVal] at hc; obtain ⟨rfl, -⟩ := hc; exact List.prefix_refl h
      | null => simp [copyVal] at hc; obtain ⟨rfl, -⟩ := hc; exact List.prefix_refl h

theorem copyEntries_extends (fuel : Nat) :
    ∀ (l : List (String × HVal)) h h1 l1,
      copyEntries h fuel l = some (h1, l1) → h <+: h1 := by
  intro l
  induction l with
  | nil =>
      intro h h1 l1 hc
      obtain ⟨rfl, -⟩ := copyEntries_nil_eq _ _ _ _ hc
      exact List.prefix_refl _
  | cons kv rest ih =>
      intro h h1 l1 hc
      obtain ⟨ha, va, rest1, hcv, hce, -⟩ := copyEntries_cons_eq _ _ _ _ _ _ hc
      exact (copyVal_extends fuel h kv.2 ha va hcv).trans (ih ha h1 rest1 hce)

theorem copyList_extends (fuel : Nat) :
    ∀ (l : List HVal) h h1 l1,
      copyList h fuel l = some (h1, l1) → h <+: h1 := by
  intro l
  induction l with
  | nil =>
      intro h h1 l1 hc
      obtain ⟨rfl, -⟩ := copyList_nil_eq _ _ _ _ hc
      exact List.prefix_refl _
  | cons v rest ih =>
      intro h h1 l1 hc
      obtain ⟨ha, va, rest1, hcv, hce, -⟩ := copyList_cons_eq _ _ _ _ _ _ hc
      exact (copyVal_extends fuel h v ha va hcv).trans (ih ha h1 rest1 hce)

theorem HVal.refAtLeast_mono {n m : Nat} (v : HVal) (hnm : m ≤ n)
    (hv : v.refAtLeast n = true) : v.refAtLeast m = true := by
  cases v <;> simp [HVal.refAtLeast] at hv ⊢ <;> omega

theorem HVal.refBelow_mono {n m : Nat} (v : HVal) (hnm : n ≤ m)
    (hv : v.refBelow n = true) : v.refBelow m = true := by
  cases v <;> simp [HVal.refBelow] at hv ⊢ <;> omega

theorem copyVal_fresh (fuel : Nat) (h : Heap) (v : HVal) (h1 : Heap)
    (v1 : HVal) (hc : copyVal h fuel v = some (h1, v1)) :
    v1.refAtLeast h.length = true ∧ v1.refBelow h1.length = true := by
  cases v with
  | ref r =>
      obtain ⟨f1, rfl, hcase⟩ := copyVal_ref_eq _ _ _ _ _ hc
      rcases hcase with ⟨entries, h2, e1, -, hce, rfl, rfl⟩ |
        ⟨items, h2, i1, -, hce, rfl, rfl⟩
      · have hext := copyEntries_extends f1 entries h h2 e1 hce
        have := hext.length_le
        constructor <;> simp [HVal.refAtLeast, HVal.refBelow] <;> omega
      · have hext := copyList_extends f1 items h h2 i1 hce
        have := hext.length_le
        constructor <;> simp [HVal.refAtLeast, HVal.refBelow] <;> omega
  | str s =>
      simp [copyVal] at hc
      obtain ⟨-, rfl⟩ := hc
      exact ⟨rfl, rfl⟩
  | num m =>
      simp [copyVal] at hc
      obtain ⟨-, rfl⟩ := hc
      exact ⟨rfl, rfl⟩
  | bool b =>
      simp [copyVal] at hc
      obtain ⟨-, rfl⟩ := hc
      exact ⟨rfl, rfl⟩
  | null =>
      simp [copyVal] at hc
      obtain ⟨-, rfl⟩ := hc
      exact ⟨rfl, rfl⟩

theorem copyEntries_fresh (fuel : Nat) :
    ∀ (l : List (String × HVal)) h h1 l1,
      copyEntries h fuel l = some (h1, l1) →
      ∀ kv ∈ l1, kv.2.refAtLeast h.length = true ∧
        kv.2.refBelow h1.length = true := by
  intro l
  induction l with
  | nil =>
      intro h h1 l1 hc kv hkv
      obtain ⟨-, rfl⟩ := copyEntries_nil_eq _ _ _ _ hc
      simp at hkv
  | cons kv0 rest ih =>
      intro h h1 l1 hc kv hkv
      obtain ⟨ha, va, rest1, hcv, hce, rfl⟩ := copyEntries_cons_eq _ _ _ _ _ _ hc
      rcases List.mem_cons.mp hkv with rfl | hkv
      · obtain ⟨hal, hbl⟩ := copyVal_fresh fuel h kv0.2 ha va hcv
        refine ⟨hal, ?_⟩
        exact HVal.refBelow_mono _ (copyEntries_extends fuel rest ha h1 rest1 hce).length_le hbl
      · obtain ⟨hal, hbl⟩ := ih ha h1 rest1 hce kv hkv
        exact ⟨HVal.refAtLeast_mono _ (copyVal_extends fuel h kv0.2 ha va hcv).length_le hal, hbl⟩

theorem copyEntries_find? (fuel : Nat) (k : String) :
    ∀ (l : List (String × HVal)) h h1 l1,
      copyEntries h fuel l = some (h1, l1) →
      ((l.find? (fun kv => kv.1 == k) = none ∧
        l1.find? (fun kv => kv.1 == k) = none) ∨
       (∃ v v1 ha hb, l.find? (fun kv => kv.1 == k) = some (k, v) ∧
         l1.find? (fun kv => kv.1 == k) = some (k, v1) ∧
         h <+: ha ∧ copyVal ha fuel v = some (hb, v1) ∧ hb <+: h1)) := by
  intro l
  induction l with
  | nil =>
      intro h h1 l1 hc
      obtain ⟨-, rfl⟩ := copyEntries_nil_eq _ _ _ _ hc
      exact Or.inl ⟨rfl, rfl⟩
  | cons kv0 rest ih =>
      intro h h1 l1 hc
      obtain ⟨ha, va, rest1, hcv, hce, rfl⟩ := copyEntries_cons_eq _ _ _ _ _ _ hc
      by_cases hk : kv0.1 == k
      · right
        have hkeq : kv0.1 = k := eq_of_beq hk
        subst hkeq
        refine ⟨kv0.2, va, h, ha, ?_, ?_, List.prefix_refl h, hcv,
          copyEntries_extends fuel rest ha h1 rest1 hce⟩
        · simp [List.find?_cons]
        · simp [List.find?_cons]
      · rw [List.find?_cons_of_neg _ (by simpa using hk),
          List.find?_cons_of_neg _ (by simpa using hk)]
        rcases ih ha h1 rest1 hce with ⟨hn1, hn2⟩ | ⟨v, v1, hx, hy, hf1, hf2, hp1, hcv2, hp2⟩
        · exact Or.inl ⟨hn1, hn2⟩
        · exact Or.inr ⟨v, v1, hx, hy, hf1, hf2,
            (copyVal_extends fuel h kv0.2 ha va hcv).trans hp1, hcv2, hp2⟩

theorem readBackEntries_congr (h h' : Heap) (fuel : Nat) :
    ∀ l : List (String × HVal),
      (∀ kv ∈ l, readBack h' fuel kv.2 = readBack h fuel kv.2) →
      readBackEntries h' fuel l = readBackEntries h fuel l := by
  intro l
  induction l with
  | nil => intro _; simp [readBackEntries]
  | cons kv rest ih =>
      intro hp
      rw [readBackEntries, readBackEntries, hp kv (List.mem_cons_self kv rest),
        ih fun kv2 h2 => hp kv2 (List.mem_cons_of_mem _ h2)]

theorem readBackList_congr (h h' : Heap) (fuel : Nat) :
    ∀ l : List HVal,
      (∀ v ∈ l, readBack h' fuel v = readBack h fuel v) →
      readBackList h' fuel l = readBackList h fuel l := by
  intro l
  induction l with
  | nil => intro _; simp [readBackList]
  | cons v rest ih =>
      intro hp
      rw [readBackList, readBackList, hp v (List.mem_cons_self v rest),
        ih fun v2 h2 => hp v2 (List.mem_cons_of_mem _ h2)]

theorem readBack_stable (n : Nat) (h h' : Heap)
    (htake : h'.take n = h.take n)
    (hwfn : ∀ o ∈ h.take n, o.refsBelow n = true) :
    ∀ fuel v, v.refBelow n = true →
      readBack h' fuel v = readBack h fuel v := by
  intro fuel
  induction fuel with
  | zero => intro v _; cases v <;> simp [readBack]
  | succ m ih =>
      intro v hv
      cases v with
      | ref r =>
          have hr : r < n := by simpa [HVal.refBelow] using hv
          have hget : h'[r]? = h[r]? := by
            have h1 : (h'.take n)[r]? = h'[r]? := by
              rw [List.getElem?_take]
              exact if_pos hr
            have h2 : (h.take n)[r]? = h[r]? := by
              rw [List.getElem?_take]
              exact if_pos hr
            rw [← h1, ← h2, htake]
          rw [readBack, readBack, List.get?_eq_getElem?,
            List.get?_eq_getElem?, hget]
          cases hg : h[r]? with
          | none => rfl
          | some o =>
              have hmem : o ∈ h.take n := by
                have hx : (h.take n)[r]? = some o := by
                  rw [List.getElem?_take, if_pos hr]
                  exact hg
                exact List.getElem?_mem hx
              have hrefs := hwfn o hmem
              cases o with
              | obj entries =>
                  have hall : ∀ kv ∈ entries, kv.2.refBelow n = true := by
                    simpa [HObj.refsBelow, List.all_eq_true] using hrefs
                  dsimp only
                  rw [readBackEntries_congr h h' m entries
                    fun kv hkv => ih kv.2 (hall kv hkv)]
              | arr items =>
                  have hall : ∀ v2 ∈ items, v2.refBelow n = true := by
                    simpa [HObj.refsBelow, List.all_eq_true] using hrefs
                  dsimp only
                  rw [readBackList_congr h h' m items
                    fun v2 hv2 => ih v2 (hall v2 hv2)]
      | str s => simp [readBack]
      | num m2 => simp [readBack]
      | bool b => simp [readBack]
      | null => simp [readBack]

theorem objSetEntry_map_find_other (k k' : String) (v : HVal)
    (hne : k' ≠ k) :
    ∀ entries : List (String × HVal),
      ((entries.map fun kv => if kv.1 == k then (k, v) else kv).find?
        (fun kv => kv.1 == k')) = entries.find? (fun kv => kv.1 == k') := by
  intro entries
  induction entries with
  | nil => rfl
  | cons kv0 rest ih =>
      by_cases hk : (kv0.1 == k) = true
      · have hkeq : kv0.1 = k := eq_of_beq hk
        simp only [List.map_cons, if_pos hk]
        rw [List.find?_cons, List.find?_cons]
        have hkne : (k == k') = false := by
          simp
          exact fun hc => hne hc.symm
        have hk0ne : (kv0.1 == k') = false := by
          rw [hkeq]
          exact hkne
        rw [hkne, hk0ne]
        exact ih
      · cases hp : (kv0.1 == k') with
        | false =>
            simp only [List.map_cons, if_neg hk, List.find?_cons, hp]
            exact ih
        | true =>
            simp only [List.map_cons, if_neg hk, List.find?_cons, hp]

theorem objSetEntry_find_self (entries : List (String × HVal)) (k : String)
    (v : HVal) :
    (objSetEntry entries k v).find? (fun kv => kv.1 == k) = some (k, v) := by
  unfold objSetEntry
  by_cases hany : (entries.any fun kv => kv.1 == k) = true
  · rw [if_pos hany]
    induction entries with
    | nil => simp at hany
    | cons kv0 rest ih =>
        by_cases hk : (kv0.1 == k) = true
        · simp only [List.map_cons, if_pos hk]
          rw [List.find?_cons]
          simp
        · simp only [List.map_cons, if_neg hk]
          rw [List.find?_cons]
          have : (kv0.1 == k) = false := by simpa using hk
          rw [this]
          refine ih ?_
          simp only [List.any_cons, this, Bool.false_or] at hany
          exact hany
  · rw [if_neg hany]
    rw [List.find?_append]
    have hnone : entries.find? (fun kv => kv.1 == k) = none := by
      rw [List.find?_eq_none]
      intro kv hkv
      have hany2 : (entries.any fun kv => kv.1 == k) = false := by
        rw [← Bool.not_eq_true]
        exact hany
      rw [List.any_eq_false] at hany2
      exact hany2 kv hkv
    rw [hnone]
    simp [List.find?_cons]

theorem objSetEntry_find_other (entries : List (String × HVal))
    (k k' : String) (v : HVal) (hne : k' ≠ k) :
    (objSetEntry entries k v).find? (fun kv => kv.1 == k') =
      entries.find? (fun kv => kv.1 == k') := by
  unfold objSetEntry
  by_cases hany : (entries.any fun kv => kv.1 == k) = true
  · rw [if_pos hany]
    exact objSetEntry_map_find_other k k' v hne entries
  · rw [if_neg hany, List.find?_append]
    have : ([(k, v)].find? fun kv => kv.1 == k') = none := by
      rw [List.find?_eq_none]
      intro kv hkv
      simp only [List.mem_singleton] at hkv
      subst hkv
      intro hc
      exact hne (eq_of_beq hc).symm
    rw [this]
    cases entries.find? fun kv => kv.1 == k' <;> rfl

theorem heapSetField_getElem_ne (h : Heap) (r : Nat) (k : String) (v : HVal)
    (r' : Nat) (hne : r ≠ r') : (heapSetField h r k v)[r']? = h[r']? := by
  unfold heapSetField
  rw [List.get?_eq_getElem?]
  cases hg : h[r]? with
  | none => rfl
  | some o =>
      cases o with
      | obj entries => exact List.getElem?_set_ne hne
      | arr items => rfl

theorem heapSetField_take (h : Heap) (r : Nat) (k : String) (v : HVal)
    (n : Nat) (hn : n ≤ r) : (heapSetField h r k v).take n = h.take n := by
  unfold heapSetField
  rw [List.get?_eq_getElem?]
  cases hg : h[r]? with
  | none => rfl
  | some o =>
      cases o with
      | obj entries => exact take_set_of_le h n r _ hn
      | arr items => rfl

theorem heapSetField_getElem_self (h : Heap) (r : Nat) (k : String)
    (v : HVal) (entries : List (String × HVal))
    (hg : h[r]? = some (.obj entries)) :
    (heapSetField h r k v)[r]? = some (.obj (objSetEntry entries k v)) := by
  unfold heapSetField
  rw [List.get?_eq_getElem?, hg]
  have hr : r < h.length := (List.getElem?_eq_some.mp hg).1
  exact List.getElem?_set_eq hr

theorem heapSetField_length (h : Heap) (r : Nat) (k : String) (v : HVal) :
    (heapSetField h r k v).length = h.length := by
  unfold heapSetField
  rw [List.get?_eq_getElem?]
  cases hg : h[r]? with
  | none => rfl
  | some o =>
      cases o with
      | obj entries => exact List.length_set h _ _
      | arr items => rfl

theorem heapGetField_congr (h1 h2 : Heap) (r : Nat) (hg : h1[r]? = h2[r]?)
    (k : String) : heapGetField h1 r k = heapGetField h2 r k := by
  unfold heapGetField
  rw [List.get?_eq_getElem?, List.get?_eq_getElem?, hg]

theorem heapGetField_of_obj (h : Heap) (r : Nat)
    (e : List (String × HVal)) (hg : h[r]? = some (.obj e)) (k : String) :
    heapGetField h r k = (e.find? fun kv => kv.1 == k).map (·.2) := by
  unfold heapGetField
  rw [List.get?_eq_getElem?, hg]

/-- Facts about the heap after appending the fresh proxy object
`{ url }` and assigning `newOptions.cf.proxy`: the prefix below `n` is
untouched and the `cf`, `proxy`, `url` and (absent) `auth` fields read as
expected. -/
theorem applyProxy_h4_facts (S1 : Heap) (n newRef cfRef : Nat) (u : String)
    (cfEntries : List (String × HVal))
    (hnewlt : newRef < S1.length) (hcflt : cfRef < S1.length)
    (hnewne : cfRef ≠ newRef)
    (hnge : n ≤ newRef) (hcge : n ≤ cfRef)
    (hgetcf : S1[cfRef]? = some (.obj cfEntries))
    (hcfval : heapGetField S1 newRef "cf" = some (.ref cfRef)) :
    (heapSetField (S1 ++ [HObj.obj [("url", HVal.str u)]]) cfRef "proxy"
        (.ref S1.length)).take n = S1.take n ∧
    (heapSetField (S1 ++ [HObj.obj [("url", HVal.str u)]]) cfRef "proxy"
        (.ref S1.length)).length = S1.length + 1 ∧
    (heapSetField (S1 ++ [HObj.obj [("url", HVal.str u)]]) cfRef "proxy"
        (.ref S1.length))[S1.length]? = some (.obj [("url", HVal.str u)]) ∧
    heapGetField (heapSetField (S1 ++ [HObj.obj [("url", HVal.str u)]]) cfRef
      "proxy" (.ref S1.length)) newRef "cf" = some (.ref cfRef) ∧
    heapGetField (heapSetField (S1 ++ [HObj.obj [("url", HVal.str u)]]) cfRef
      "proxy" (.ref S1.length)) cfRef "proxy" = some (.ref S1.length) ∧
    heapGetField (heapSetField (S1 ++ [HObj.obj [("url", HVal.str u)]]) cfRef
      "proxy" (.ref S1.length)) S1.length "url" = some (.str u) ∧
    heapGetField (heapSetField (S1 ++ [HObj.obj [("url", HVal.str u)]]) cfRef
      "proxy" (.ref S1.length)) S1.length "auth" = none := by
  have hproxyne : cfRef ≠ S1.length := by omega
  have h3get_cf : (S1 ++ [HObj.obj [("url", HVal.str u)]])[cfRef]? =
      some (.obj cfEntries) := by
    rw [getElem?_append_left _ _ _ hcflt]
    exact hgetcf
  have h3get_proxy : (S1 ++ [HObj.obj [("url", HVal.str u)]])[S1.length]? =
      some (.obj [("url", HVal.str u)]) := by simp
  have h3get_new : (S1 ++ [HObj.obj [("url", HVal.str u)]])[newRef]? =
      S1[newRef]? := getElem?_append_left _ _ _ hnewlt
  have h4get_cf := heapSetField_getElem_self
    (S1 ++ [HObj.obj [("url", HVal.str u)]]) cfRef "proxy"
    (.ref S1.length) _ h3get_cf
  have h4get_proxy : (heapSetField (S1 ++ [HObj.obj [("url", HVal.str u)]])
      cfRef "proxy" (.ref S1.length))[S1.length]? =
      some (.obj [("url", HVal.str u)]) := by
    rw [heapSetField_getElem_ne _ _ _ _ _ hproxyne]
    exact h3get_proxy
  have h4get_new : (heapSetField (S1 ++ [HObj.obj [("url", HVal.str u)]])
      cfRef "proxy" (.ref S1.length))[newRef]? = S1[newRef]? := by
    rw [heapSetField_getElem_ne _ _ _ _ _ hnewne]
    exact h3get_new
  refine ⟨?_, ?_, h4get_proxy, ?_, ?_, ?_, ?_⟩
  · rw [heapSetField_take _ _ _ _ _ hcge,
      List.take_append_of_le_length (by omega)]
  · rw [heapSetField_length]
    simp
  · rw [heapGetField_congr _ S1 newRef h4get_new]
    exact hcfval
  · rw [heapGetField_of_obj _ _ _ h4get_cf, objSetEntry_find_self]
    rfl
  · rw [heapGetField_of_obj _ _ _ h4get_proxy]
    rfl
  · rw [heapGetField_of_obj _ _ _ h4get_proxy]
    rfl

/-- Facts about the heap after appending the fresh credentials object
and assigning `cf.proxy.auth`: the prefix below `n` is untouched and the
`cf`, `proxy`, `url`, `auth`, `username` and `password` fields read as
expected. -/
theorem applyProxy_auth_facts (H4 : Heap) (n newRef cfRef proxyRef : Nat)
    (u user pass : String)
    (hplt : proxyRef < H4.length) (hpge : n ≤ proxyRef)
    (hnewne : proxyRef ≠ newRef) (hcfne : proxyRef ≠ cfRef)
    (hnewlt : newRef < H4.length) (hcflt : cfRef < H4.length)
    (hgetp : H4[proxyRef]? = some (.obj [("url", HVal.str u)]))
    (hcf : heapGetField H4 newRef "cf" = some (.ref cfRef))
    (hproxy : heapGetField H4 cfRef "proxy" = some (.ref proxyRef)) :
    (heapSetField (H4 ++ [HObj.obj [("username", HVal.str user),
        ("password", HVal.str pass)]]) proxyRef "auth"
        (.ref H4.length)).take n = H4.take n ∧
    heapGetField (heapSetField (H4 ++ [HObj.obj
        [("username", HVal.str user), ("password", HVal.str pass)]])
        proxyRef "auth" (.ref H4.length)) newRef "cf" = some (.ref cfRef) ∧
    heapGetField (heapSetField (H4 ++ [HObj.obj
        [("username", HVal.str user), ("password", HVal.str pass)]])
        proxyRef "auth" (.ref H4.length)) cfRef "proxy" =
      some (.ref proxyRef) ∧
    heapGetField (heapSetField (H4 ++ [HObj.obj
        [("username", HVal.str user), ("password", HVal.str pass)]])
        proxyRef "auth" (.ref H4.length)) proxyRef "url" = some (.str u) ∧
    heapGetField (heapSetField (H4 ++ [HObj.obj
        [("username", HVal.str user), ("password", HVal.str pass)]])
        proxyRef "auth" (.ref H4.length)) proxyRef "auth" =
      some (.ref H4.length) ∧
    heapGetField (heapSetField (H4 ++ [HObj.obj
        [("username", HVal.str user), ("password", HVal.str pass)]])
        proxyRef "auth" (.ref H4.length)) H4.length "username" =
      some (.str user) ∧
    heapGetField (heapSetField (H4 ++ [HObj.obj
        [("username", HVal.str user), ("password", HVal.str pass)]])
        proxyRef "auth" (.ref H4.length)) H4.length "password" =
      some (.str pass) := by
  have hauthne : proxyRef ≠ H4.length := by omega
  have h4aget_proxy : (H4 ++ [HObj.obj [("username", HVal.str user),
      ("password", HVal.str pass)]])[proxyRef]? =
      some (.obj [("url", HVal.str u)]) := by
    rw [getElem?_append_left _ _ _ hplt]
    exact hgetp
  have h5get_proxy := heapSetField_getElem_self _ proxyRef "auth"
    (.ref H4.length) _ h4aget_proxy
  have h5get_new : (heapSetField (H4 ++ [HObj.obj
      [("username", HVal.str user), ("password", HVal.str pass)]])
      proxyRef "auth" (.ref H4.length))[newRef]? = H4[newRef]? := by
    rw [heapSetField_getElem_ne _ _ _ _ _ hnewne,
      getElem?_append_left _ _ _ hnewlt]
  have h5get_cf : (heapSetField (H4 ++ [HObj.obj
      [("username", HVal.str user), ("password", HVal.str pass)]])
      proxyRef "auth" (.ref H4.length))[cfRef]? = H4[cfRef]? := by
    rw [heapSetField_getElem_ne _ _ _ _ _ hcfne,
      getElem?_append_left _ _ _ hcflt]
  have h5get_auth : (heapSetField (H4 ++ [HObj.obj
      [("username", HVal.str user), ("password", HVal.str pass)]])
      proxyRef "auth" (.ref H4.length))[H4.length]? =
      some (.obj [("username", HVal.str user),
        ("password", HVal.str pass)]) := by
    rw [heapSetField_getElem_ne _ _ _ _ _ hauthne]
    simp
  refine ⟨?_, ?_, ?_, ?_, ?_, ?_, ?_⟩
  · rw [heapSetField_take _ _ _ _ _ hpge,
      List.take_append_of_le_length (by omega)]
  · rw [heapGetField_congr _ H4 newRef h5get_new]
    exact hcf
  · rw [heapGetField_congr _ H4 cfRef h5get_cf]
    exact hproxy
  · rw [heapGetField_of_obj _ _ _ h5get_proxy,
      objSetEntry_find_other _ _ _ _ (by decide)]
    rfl
  · rw [heapGetField_of_obj _ _ _ h5get_proxy, objSetEntry_find_self]
    rfl
  · rw [heapGetField_of_obj _ _ _ h5get_auth]
    rfl
  · rw [heapGetField_of_obj _ _ _ h5get_auth]
    rfl

/-- The mutation phase of `applyProxyToFetchOptions` after `step1`:
given any state `S1` with the copied options at `newRef` whose `cf` field
references the object at `cfRef` (both at or past the original heap), the
final heap keeps the original prefix intact, the original options read
back unchanged, and `cf.proxy` (with `auth` exactly when requested) is
set on the copy. -/
theorem applyProxy_tail_facts (h S1 : Heap) (optRef newRef cfRef : Nat)
    (u user pass : String) (addAuth : Bool)
    (cfEntries : List (String × HVal)) (h5 : Heap)
    (hwf : wfHeap h = true) (hoptlt : optRef < h.length)
    (htake : S1.take h.length = h.take h.length)
    (hnewlt : newRef < S1.length) (hcflt : cfRef < S1.length)
    (hnewne : cfRef ≠ newRef)
    (hnge : h.length ≤ newRef) (hcge : h.length ≤ cfRef)
    (hgetcf : S1[cfRef]? = some (.obj cfEntries))
    (hcfval : heapGetField S1 newRef "cf" = some (.ref cfRef))
    (hh5 : h5 = if addAuth then
        heapSetField
          ((heapSetField (S1 ++ [HObj.obj [("url", HVal.str u)]]) cfRef
            "proxy" (.ref S1.length)) ++
            [HObj.obj [("username", HVal.str user),
              ("password", HVal.str pass)]])
          S1.length "auth"
          (.ref (heapSetField (S1 ++ [HObj.obj [("url", HVal.str u)]]) cfRef
            "proxy" (.ref S1.length)).length)
      else heapSetField (S1 ++ [HObj.obj [("url", HVal.str u)]]) cfRef
        "proxy" (.ref S1.length)) :
    h5.take h.length = h.take h.length ∧
    (∀ f, readBack h5 f (.ref optRef) = readBack h f (.ref optRef)) ∧
    (∃ proxyRef,
      heapGetField h5 newRef "cf" = some (.ref cfRef) ∧
      heapGetField h5 cfRef "proxy" = some (.ref proxyRef) ∧
      heapGetField h5 proxyRef "url" = some (.str u) ∧
      (addAuth = true → ∃ authRef,
        heapGetField h5 proxyRef "auth" = some (.ref authRef) ∧
        heapGetField h5 authRef "username" = some (.str user) ∧
        heapGetField h5 authRef "password" = some (.str pass)) ∧
      (addAuth = false → heapGetField h5 proxyRef "auth" = none)) := by
  obtain ⟨h4take, h4len, h4getp, h4cf, h4proxy, h4url, h4auth⟩ :=
    applyProxy_h4_facts S1 h.length newRef cfRef u cfEntries hnewlt hcflt
      hnewne hnge hcge hgetcf hcfval
  have hwfn : ∀ o ∈ h.take h.length, o.refsBelow h.length = true := by
    rw [List.take_length]
    exact fun o ho => List.all_eq_true.mp hwf o ho
  have hrb : (HVal.ref optRef).refBelow h.length = true := by
    simp [HVal.refBelow]
    omega
  cases addAuth with
  | false =>
      simp only [Bool.false_eq_true, if_false] at hh5
      subst hh5
      have htk : (heapSetField (S1 ++ [HObj.obj [("url", HVal.str u)]])
          cfRef "proxy" (.ref S1.length)).take h.length =
          h.take h.length := by rw [h4take, htake]
      refine ⟨htk, fun f => readBack_stable h.length h _ htk hwfn f _ hrb,
        S1.length, h4cf, h4proxy, h4url, ?_, fun _ => h4auth⟩
      intro habs
      exact absurd habs (by simp)
  | true =>
      simp only [if_true] at hh5
      subst hh5
      obtain ⟨h5take, h5cf, h5proxy, h5url, h5auth, h5user, h5pass⟩ :=
        applyProxy_auth_facts
          (heapSetField (S1 ++ [HObj.obj [("url", HVal.str u)]]) cfRef
            "proxy" (.ref S1.length))
          h.length newRef cfRef S1.length u user pass
          (by omega) (by omega) (by omega) (by omega) (by omega) (by omega)
          h4getp h4cf h4proxy
      have htk : (heapSetField
          ((heapSetField (S1 ++ [HObj.obj [("url", HVal.str u)]]) cfRef
            "proxy" (.ref S1.length)) ++
            [HObj.obj [("username", HVal.str user),
              ("password", HVal.str pass)]])
          S1.length "auth"
          (.ref (heapSetField (S1 ++ [HObj.obj [("url", HVal.str u)]]) cfRef
            "proxy" (.ref S1.length)).length)).take h.length =
          h.take h.length := by rw [h5take, h4take, htake]
      refine ⟨htk, fun f => readBack_stable h.length h _ htk hwfn f _ hrb,
        S1.length, h5cf, h5proxy, h5url,
        fun _ => ⟨_, h5auth, h5user, h5pass⟩, ?_⟩
      intro habs
      exact absurd habs (by simp)

/-- Facts about `step1` when a fresh empty `cf` object is installed
(the source's `if (!newOptions.cf) newOptions.cf` assignment of an empty
object): the resulting state satisfies the interface of the mutation
phase. -/
theorem applyProxy_freshcf_facts (h h2 : Heap)
    (entries1 : List (String × HVal))
    (hlen2 : h.length ≤ h2.length)
    (htake1 : (h2 ++ [HObj.obj entries1]).take h.length =
      h.take h.length) :
    (heapSetField ((h2 ++ [HObj.obj entries1]) ++ [HObj.obj []]) h2.length
        "cf" (.ref (h2 ++ [HObj.obj entries1]).length)).take h.length =
      h.take h.length ∧
    h2.length < (heapSetField ((h2 ++ [HObj.obj entries1]) ++
        [HObj.obj []]) h2.length "cf"
        (.ref (h2 ++ [HObj.obj entries1]).length)).length ∧
    (h2 ++ [HObj.obj entries1]).length < (heapSetField
        ((h2 ++ [HObj.obj entries1]) ++ [HObj.obj []]) h2.length "cf"
        (.ref (h2 ++ [HObj.obj entries1]).length)).length ∧
    (heapSetField ((h2 ++ [HObj.obj entries1]) ++ [HObj.obj []]) h2.length "cf" (.ref (h2 ++ [HObj.obj entries1]).length))[(h2 ++ [HObj.obj entries1]).length]? = some (.obj []) ∧
    heapGetField (heapSetField ((h2 ++ [HObj.obj entries1]) ++
        [HObj.obj []]) h2.length "cf"
        (.ref (h2 ++ [HObj.obj entries1]).length)) h2.length "cf" =
      some (.ref (h2 ++ [HObj.obj entries1]).length) := by
  have hlenS : (heapSetField ((h2 ++ [HObj.obj entries1]) ++
      [HObj.obj []]) h2.length "cf"
      (.ref (h2 ++ [HObj.obj entries1]).length)).length =
      (h2 ++ [HObj.obj entries1]).length + 1 := by
    rw [heapSetField_length]
    simp
  refine ⟨?_, ?_, ?_, ?_, ?_⟩
  · rw [heapSetField_take _ _ _ _ _ hlen2,
      List.take_append_of_le_length
        (le_trans (by simpa using hlen2) (by simp)), htake1]
  · rw [hlenS]
    simp
    omega
  · rw [hlenS]
    simp
  · rw [heapSetField_getElem_ne _ _ _ _ _ (by simp)]
    exact List.getElem?_concat_length _ _
  · have hg1 : ((h2 ++ [HObj.obj entries1]) ++
        [HObj.obj []])[h2.length]? = some (.obj entries1) := by
      rw [getElem?_append_left _ _ _ (by simp)]
      exact List.getElem?_concat_length _ _
    rw [heapGetField_of_obj _ _ _
      (heapSetField_getElem_self _ _ "cf" _ _ hg1),
      objSetEntry_find_self]
    rfl

/-- C10: `applyProxyToFetchOptions` never mutates its input options
object.  When no proxy is selected (disabled or zero providers) it
returns the input reference over an unchanged heap; when a proxy is
selected it returns a fresh deep copy, allocated entirely past the
original heap, with `cf.proxy` set to a fresh object holding the proxy
url — and `cf.proxy.auth` set to a fresh object holding the username and
password exactly when both credentials are present and nonempty — while
the heap prefix holding the
original options is untouched and the original object reads back
(`JSON`-wise) exactly as before. -/
theorem C10_applyProxy_frame (rand : ℚ) (domain : Option String)
    (fuel : Nat) (h : Heap) (optRef : Nat) (st : ProxyState)
    (hwf : wfHeap h = true)
    (hopt : ∃ entries0, h[optRef]? = some (HObj.obj entries0))
    (hcf : cfFieldOk h optRef = true) :
    ((getCurrentProxy rand domain st).1 = none →
      applyProxyToFetchOptions rand domain fuel h optRef st =
        some (h, .ref optRef, (getCurrentProxy rand domain st).2)) ∧
    (∀ proxy h' v st',
      (getCurrentProxy rand domain st).1 = some proxy →
      applyProxyToFetchOptions rand domain fuel h optRef st =
        some (h', v, st') →
      st' = (getCurrentProxy rand domain st).2 ∧
      ∃ newRef cfRef proxyRef,
        v = .ref newRef ∧ h.length ≤ newRef ∧
        h'.take h.length = h.take h.length ∧
        (∀ f, readBack h' f (.ref optRef) = readBack h f (.ref optRef)) ∧
        heapGetField h' newRef "cf" = some (.ref cfRef) ∧
        heapGetField h' cfRef "proxy" = some (.ref proxyRef) ∧
        heapGetField h' proxyRef "url" = some (.str proxy.url) ∧
        (((proxy.username.elim false fun s => s ≠ "") &&
            (proxy.password.elim false fun s => s ≠ "")) = true →
          ∃ authRef,
            heapGetField h' proxyRef "auth" = some (.ref authRef) ∧
            heapGetField h' authRef "username" =
              some (.str (proxy.username.getD "")) ∧
            heapGetField h' authRef "password" =
              some (.str (proxy.password.getD ""))) ∧
        (((proxy.username.elim false fun s => s ≠ "") &&
            (proxy.password.elim false fun s => s ≠ "")) = false →
          heapGetField h' proxyRef "auth" = none)) := by
  constructor
  · intro hnone
    simp only [applyProxyToFetchOptions, hnone]
  · intro proxy h' v st' hsome hres
    simp only [applyProxyToFetchOptions, hsome] at hres
    cases hcopy : copyVal h fuel (.ref optRef) with
    | none =>
        rw [hcopy] at hres
        exact absurd hres (by simp)
    | some pa =>
        obtain ⟨h1, newOpts⟩ := pa
        rw [hcopy] at hres
        obtain ⟨fuel1, rfl, hcase⟩ := copyVal_ref_eq _ _ _ _ _ hcopy
        obtain ⟨entries0, hopt0⟩ := hopt
        rcases hcase with ⟨entries, h2, entries1, hg, hce, rfl, rfl⟩ |
          ⟨items, h2x, items1, hg, -, -, -⟩
        · -- the options object is copied entry by entry
          dsimp only at hres
          have hoptlt : optRef < h.length :=
            (List.getElem?_eq_some.mp hg).1
          have hpre2 : h <+: h2 := copyEntries_extends fuel1 entries h h2
            entries1 hce
          have hlen2 : h.length ≤ h2.length := hpre2.length_le
          have hget1 : (h2 ++ [HObj.obj entries1])[h2.length]? =
              some (.obj entries1) := List.getElem?_concat_length _ _
          have htake1 : (h2 ++ [HObj.obj entries1]).take h.length =
              h.take h.length := by
            rw [List.take_append_of_le_length (by simpa using hlen2),
              prefix_take_eq hpre2, List.take_length]
          have hgfcf : heapGetField h optRef "cf" =
              (entries.find? fun kv => kv.1 == "cf").map (·.2) :=
            heapGetField_of_obj h optRef entries hg "cf"
          rcases copyEntries_find? fuel1 "cf" entries h h2 entries1 hce with
            ⟨hfln, hfln1⟩ | ⟨w, w1, ha, hb, hfl, hfl1, hpa, hcv, hpb⟩
          · -- no "cf" on the original: a fresh empty cf object is created
            have hgf1 : heapGetField (h2 ++ [HObj.obj entries1])
                h2.length "cf" = none := by
              rw [heapGetField_of_obj _ _ _ hget1, hfln1]
              rfl
            rw [hgf1] at hres
            dsimp only at hres
            simp only [Option.some.injEq, Prod.mk.injEq] at hres
            obtain ⟨hh5, hv, hst⟩ := hres
            obtain ⟨f1, f2, f3, f4, f5⟩ :=
              applyProxy_freshcf_facts h h2 entries1 hlen2 htake1
            obtain ⟨htake5, hrb5, proxyRef, h5cf, h5proxy, h5url, h5aT,
              h5aF⟩ :=
              applyProxy_tail_facts h _ optRef h2.length
                (h2 ++ [HObj.obj entries1]).length proxy.url
                (proxy.username.getD "") (proxy.password.getD "")
                ((proxy.username.elim false fun s => s ≠ "") &&
                  (proxy.password.elim false fun s => s ≠ "")) [] h'
                hwf hoptlt f1 f2 f3 (by simp) hlen2
                (le_trans hlen2 (by simp)) f4 f5 hh5.symm
            exact ⟨hst.symm, h2.length, _, proxyRef, hv.symm, hlen2,
              htake5, hrb5, h5cf, h5proxy, h5url, h5aT, h5aF⟩
          · -- "cf" present on the original: inspect its well-typed value
            rw [hfl] at hgfcf
            simp only [Option.map_some'] at hgfcf
            simp only [cfFieldOk] at hcf
            rw [hgfcf] at hcf
            have hwcases : (∃ c centries, w = HVal.ref c ∧
                h[c]? = some (HObj.obj centries)) ∨
                (w.isPrim = true ∧ w.truthy = false) := by
              cases w with
              | ref c =>
                  dsimp only at hcf
                  cases hc2 : h[c]? with
                  | none =>
                      rw [hc2] at hcf
                      exact absurd hcf (by simp)
                  | some o =>
                      cases o with
                      | arr itemsc =>
                          rw [hc2] at hcf
                          exact absurd hcf (by simp)
                      | obj centries => exact Or.inl ⟨c, centries, rfl, hc2⟩
              | str s =>
                  dsimp only at hcf
                  exact Or.inr ⟨rfl, by simpa using hcf⟩
              | num m =>
                  dsimp only at hcf
                  exact Or.inr ⟨rfl, by simpa using hcf⟩
              | bool b =>
                  dsimp only at hcf
                  exact Or.inr ⟨rfl, by simpa using hcf⟩
              | null =>
                  dsimp only at hcf
                  exact Or.inr ⟨rfl, by simpa using hcf⟩
            rcases hwcases with ⟨c, centries, rfl, hc2⟩ | ⟨hprim, hvt⟩
            · -- cf is an object reference: the copy carries a fresh
              -- copied cf object, reused by the mutation phase
              have hclt : c < h.length := (List.getElem?_eq_some.mp hc2).1
              have hac2 : ha[c]? = some (.obj centries) := by
                rw [prefix_getElem? hpa hclt]
                exact hc2
              obtain ⟨fuel2, -, hcase2⟩ := copyVal_ref_eq _ _ _ _ _ hcv
              rcases hcase2 with
                ⟨centries2, hb2, cent1, hgc, hcec, rfl, rfl⟩ |
                ⟨itemsc2, -, -, hgc, -, -, -⟩
              · have hfresh := copyVal_fresh fuel1 ha (.ref c) _ _ hcv
                have hcge2 : ha.length ≤ hb2.length := by
                  simpa [HVal.refAtLeast] using hfresh.1
                have hlenb : (hb2 ++ [HObj.obj cent1]).length ≤
                    h2.length := hpb.length_le
                have hgf1 : heapGetField (h2 ++ [HObj.obj entries1])
                    h2.length "cf" = some (.ref hb2.length) := by
                  rw [heapGetField_of_obj _ _ _ hget1, hfl1]
                  rfl
                rw [hgf1] at hres
                dsimp only [HVal.truthy] at hres
                rw [if_pos rfl] at hres
                simp only [Option.some.injEq, Prod.mk.injEq] at hres
                obtain ⟨hh5, hv, hst⟩ := hres
                have hgetcfS1 : (h2 ++ [HObj.obj entries1])[hb2.length]? =
                    some (.obj cent1) := by
                  rw [prefix_getElem?
                    (hpb.trans ⟨[HObj.obj entries1], rfl⟩) (by simp)]
                  exact List.getElem?_concat_length _ _
                obtain ⟨htake5, hrb5, proxyRef, h5cf, h5proxy, h5url,
                  h5aT, h5aF⟩ :=
                  applyProxy_tail_facts h _ optRef h2.length hb2.length
                    proxy.url (proxy.username.getD "")
                    (proxy.password.getD "")
                    ((proxy.username.elim false fun s => s ≠ "") &&
                      (proxy.password.elim false fun s => s ≠ "")) cent1 h'
                    hwf hoptlt htake1 (by simp)
                    (by simp at hlenb ⊢; omega) (by simp at hlenb; omega)
                    hlen2 (le_trans hpa.length_le hcge2)
                    hgetcfS1 hgf1 hh5.symm
                exact ⟨hst.symm, h2.length, _, proxyRef, hv.symm, hlen2,
                  htake5, hrb5, h5cf, h5proxy, h5url, h5aT, h5aF⟩
              · rw [hac2] at hgc
                exact absurd hgc (by simp)
            · -- cf is a falsy primitive (e.g. undefined): the copy keeps
              -- it, and a fresh empty cf object is installed
              have hw1 : hb = ha ∧ w1 = w := by
                rw [copyVal_prim ha fuel1 w hprim] at hcv
                simp only [Option.some.injEq, Prod.mk.injEq] at hcv
                exact ⟨hcv.1.symm, hcv.2.symm⟩
              have hvt1 : w1.truthy = false := by
                rw [hw1.2]
                exact hvt
              have hgf1 : heapGetField (h2 ++ [HObj.obj entries1])
                  h2.length "cf" = some w1 := by
                rw [heapGetField_of_obj _ _ _ hget1, hfl1]
                rfl
              rw [hgf1] at hres
              dsimp only at hres
              rw [if_neg (by rw [hvt1]; exact Bool.false_ne_true)] at hres
              dsimp only at hres
              simp only [Option.some.injEq, Prod.mk.injEq] at hres
              obtain ⟨hh5, hv, hst⟩ := hres
              obtain ⟨f1, f2, f3, f4, f5⟩ :=
                applyProxy_freshcf_facts h h2 entries1 hlen2 htake1
              obtain ⟨htake5, hrb5, proxyRef, h5cf, h5proxy, h5url, h5aT,
                h5aF⟩ :=
                applyProxy_tail_facts h _ optRef h2.length
                  (h2 ++ [HObj.obj entries1]).length proxy.url
                  (proxy.username.getD "") (proxy.password.getD "")
                  ((proxy.username.elim false fun s => s ≠ "") &&
                    (proxy.password.elim false fun s => s ≠ "")) [] h'
                  hwf hoptlt f1 f2 f3 (by simp) hlen2
                  (le_trans hlen2 (by simp)) f4 f5 hh5.symm
              exact ⟨hst.symm, h2.length, _, proxyRef, hv.symm, hlen2,
                htake5, hrb5, h5cf, h5proxy, h5url, h5aT, h5aF⟩
        · rw [hopt0] at hg
          exact absurd hg (by simp)

/-- C10 witness: the frame theorem applied to a concrete two-object
heap and a one-provider round-robin proxy state with credentials. -/
theorem C10_witness :
    wfHeap exHeap = true ∧ cfFieldOk exHeap 0 = true ∧
    ((getCurrentProxy 0 none exProxyState).1 = none →
      applyProxyToFetchOptions 0 none 3 exHeap 0 exProxyState =
        some (exHeap, .ref 0, (getCurrentProxy 0 none exProxyState).2)) ∧
    (∀ proxy h' v st',
      (getCurrentProxy 0 none exProxyState).1 = some proxy →
      applyProxyToFetchOptions 0 none 3 exHeap 0 exProxyState =
        some (h', v, st') →
      st' = (getCurrentProxy 0 none exProxyState).2 ∧
      ∃ newRef cfRef proxyRef,
        v = .ref newRef ∧ exHeap.length ≤ newRef ∧
        h'.take exHeap.length = exHeap.take exHeap.length ∧
        (∀ f, readBack h' f (.ref 0) = readBack exHeap f (.ref 0)) ∧
        heapGetField h' newRef "cf" = some (.ref cfRef) ∧
        heapGetField h' cfRef "proxy" = some (.ref proxyRef) ∧
        heapGetField h' proxyRef "url" = some (.str proxy.url) ∧
        (((proxy.username.elim false fun s => s ≠ "") &&
            (proxy.password.elim false fun s => s ≠ "")) = true →
          ∃ authRef,
            heapGetField h' proxyRef "auth" = some (.ref authRef) ∧
            heapGetField h' authRef "username" =
              some (.str (proxy.username.getD "")) ∧
            heapGetField h' authRef "password" =
              some (.str (proxy.password.getD ""))) ∧
        (((proxy.username.elim false fun s => s ≠ "") &&
            (proxy.password.elim false fun s => s ≠ "")) = false →
          heapGetField h' proxyRef "auth" = none)) :=
  ⟨by decide, by decide,
    C10_applyProxy_frame 0 none 3 exHeap 0 exProxyState (by decide)
      ⟨[("method", HVal.str "GET"), ("headers", HVal.ref 1)], rfl⟩
      (by decide)⟩
